import Mathlib

/-!
Verification development for the `calli` WebDAV gateway's filesystem layer.

The Go sources are shallowly embedded as executable Lean definitions:
* the S3 (`ObjectFS`) adapter: `streamingBuffer` (streaming upload state
  machine of `pkg/webdav/filesystem/s3/file.go`), `stat`/`statDir`/`readdir`/
  `OpenFile`/`RemoveAll` of `filesystem.go` and `util.go`;
* the `capped` decorator's size-accounting state (`pkg/webdav/filesystem/capped`);
* the `cor` decorator's write-through handle (`pkg/webdav/filesystem/cor`);
* the expression-rule evaluator (`internal/authz`, expr rule).

The S3 object store is modelled as an association list from object keys to
objects; all store operations succeed (the "every underlying store operation
succeeds" hypothesis of the spec).  Go `int`/`int64` sizes are modelled as
`Nat`/`Int`; byte sequences as `List Nat`.
-/

namespace Calli

/-! ### Generic association maps (Go `map[string]V` and the object store) -/

/-- Lookup in an association list (first binding wins). -/
def aget {β : Type} : List (String × β) → String → Option β
  | [], _ => none
  | (k, v) :: rest, key => if key = k then some v else aget rest key

/-- Insert-or-replace in an association list (Go map assignment `m[k] = v`). -/
def aput {β : Type} : List (String × β) → String → β → List (String × β)
  | [], key, v => [(key, v)]
  | (k, w) :: rest, key, v =>
      if key = k then (key, v) :: rest else (k, w) :: aput rest key v

/-- Delete a key from an association list (Go `delete(m, k)`). -/
def aremove {β : Type} : List (String × β) → String → List (String × β)
  | [], _ => []
  | (k, v) :: rest, key =>
      if k = key then aremove rest key else (k, v) :: aremove rest key

/-- The keys of an association list. -/
def akeys {β : Type} (m : List (String × β)) : List String := m.map Prod.fst

instance {e a : Type} [DecidableEq e] [DecidableEq a] : DecidableEq (Except e a) := fun x y =>
  match x, y with
  | .ok v, .ok w => if h : v = w then isTrue (by rw [h]) else isFalse (by simp [h])
  | .error v, .error w => if h : v = w then isTrue (by rw [h]) else isFalse (by simp [h])
  | .ok _, .error _ => isFalse (by simp)
  | .error _, .ok _ => isFalse (by simp)

theorem aget_aput_self {β : Type} (m : List (String × β)) (k : String) (v : β) :
    aget (aput m k v) k = some v := by
  induction m with
  | nil => simp [aget, aput]
  | cons hd tl ih =>
      by_cases h : k = hd.1
      · simp [aput, aget, h]
      · simp [aput, aget, h, ih]

theorem aget_aput_ne {β : Type} (m : List (String × β)) (k k' : String) (v : β)
    (h : k' ≠ k) : aget (aput m k v) k' = aget m k' := by
  induction m with
  | nil => simp [aget, aput, h]
  | cons hd tl ih =>
      by_cases hk : k = hd.1
      · subst hk
        simp [aput, aget, h]
      · by_cases hk' : k' = hd.1
        · simp [aput, aget, hk, hk']
        · simp [aput, aget, hk, hk', ih]

theorem aget_aremove {β : Type} (m : List (String × β)) (k k' : String) :
    aget (aremove m k) k' = if k' = k then none else aget m k' := by
  induction m with
  | nil => simp [aget, aremove]
  | cons hd tl ih =>
      by_cases hk : hd.1 = k
      · rw [aremove, if_pos hk, ih, aget]
        by_cases hk' : k' = hd.1
        · simp [hk' ▸ hk]
        · simp [hk']
      · rw [aremove, if_neg hk, aget, aget]
        by_cases hk' : k' = hd.1
        · have hne : ¬ k' = k := fun h => hk (by rw [← hk', h])
          simp [hk', hne, hk]
        · simp [hk', ih]

theorem aget_aremove_self {β : Type} (m : List (String × β)) (k : String) :
    aget (aremove m k) k = none := by
  simp [aget_aremove]

theorem aget_aremove_ne {β : Type} (m : List (String × β)) (k k' : String)
    (h : k' ≠ k) : aget (aremove m k) k' = aget m k' := by
  simp [aget_aremove, h]

/-! ### Decimal rendering of natural numbers (Go `fmt.Sprintf("%d", n)`)

The streaming buffer derives part keys with `fmt.Sprintf("%s/%d", partPref,
partNum)`.  We embed `%d` as the usual most-significant-first decimal digit
string.  Injectivity of the rendering is what makes distinct part numbers
yield distinct part keys. -/

/-- Decimal digits of `n`, most significant first; fuel-driven so that it is
structurally recursive (fuel `n` always suffices). -/
def natDecDigitsAux : Nat → Nat → List Nat
  | 0, n => [n % 10]
  | fuel + 1, n => if n < 10 then [n] else natDecDigitsAux fuel (n / 10) ++ [n % 10]

/-- Decimal digits of `n`, most significant first. -/
def natDecDigits (n : Nat) : List Nat := natDecDigitsAux n n

/-- Value of a most-significant-first decimal digit list. -/
def decVal (l : List Nat) : Nat := l.foldl (fun a d => 10 * a + d) 0

theorem decVal_append_singleton (l : List Nat) (d : Nat) :
    decVal (l ++ [d]) = 10 * decVal l + d := by
  simp [decVal, List.foldl_append]

theorem decVal_natDecDigitsAux (fuel n : Nat) (h : n ≤ fuel) :
    decVal (natDecDigitsAux fuel n) = n := by
  induction fuel generalizing n with
  | zero =>
      have : n = 0 := Nat.le_zero.mp h
      subst this
      simp [natDecDigitsAux, decVal]
  | succ fuel ih =>
      by_cases hn : n < 10
      · simp [natDecDigitsAux, hn, decVal]
      · have hdiv : n / 10 ≤ fuel := by
          have h1 : n / 10 < n := Nat.div_lt_self (by omega) (by omega)
          omega
        simp [natDecDigitsAux, hn, decVal_append_singleton, ih _ hdiv]
        omega

theorem decVal_natDecDigits (n : Nat) : decVal (natDecDigits n) = n :=
  decVal_natDecDigitsAux n n (Nat.le_refl n)

theorem natDecDigits_injective : Function.Injective natDecDigits := by
  intro a b h
  have := decVal_natDecDigits a
  rw [h, decVal_natDecDigits] at this
  omega

theorem natDecDigitsAux_lt_ten (fuel n : Nat) (h : n ≤ fuel) :
    ∀ d ∈ natDecDigitsAux fuel n, d < 10 := by
  induction fuel generalizing n with
  | zero =>
      intro d hd
      simp [natDecDigitsAux] at hd
      omega
  | succ fuel ih =>
      intro d hd
      by_cases hn : n < 10
      · simp [natDecDigitsAux, hn] at hd
        omega
      · simp [natDecDigitsAux, hn] at hd
        rcases hd with hd | hd
        · exact ih (n / 10) (by
            have h1 : n / 10 < n := Nat.div_lt_self (by omega) (by omega)
            omega) d hd
        · omega

theorem natDecDigits_lt_ten (n : Nat) : ∀ d ∈ natDecDigits n, d < 10 :=
  natDecDigitsAux_lt_ten n n (Nat.le_refl n)

theorem digitChar_injOn : ∀ a < 10, ∀ b < 10, Nat.digitChar a = Nat.digitChar b → a = b := by
  decide

theorem map_digitChar_inj :
    ∀ (l₁ l₂ : List Nat), (∀ d ∈ l₁, d < 10) → (∀ d ∈ l₂, d < 10) →
      l₁.map Nat.digitChar = l₂.map Nat.digitChar → l₁ = l₂ := by
  intro l₁
  induction l₁ with
  | nil =>
      intro l₂ _ _ h
      cases l₂ with
      | nil => rfl
      | cons b tl => simp at h
  | cons a tl ih =>
      intro l₂ h₁ h₂ h
      cases l₂ with
      | nil => simp at h
      | cons b tl₂ =>
          simp only [List.map_cons, List.cons.injEq] at h
          have ha : a < 10 := h₁ a (by simp)
          have hb : b < 10 := h₂ b (by simp)
          have hab : a = b := digitChar_injOn a ha b hb h.1
          have htl : tl = tl₂ :=
            ih tl₂ (fun d hd => h₁ d (by simp [hd])) (fun d hd => h₂ d (by simp [hd])) h.2
          rw [hab, htl]

/-- Decimal string of `n` (the embedding of Go `%d`). -/
def natDecStr (n : Nat) : String := String.mk ((natDecDigits n).map Nat.digitChar)

theorem natDecStr_injective : Function.Injective natDecStr := by
  intro a b h
  have hdata : (natDecDigits a).map Nat.digitChar = (natDecDigits b).map Nat.digitChar := by
    have := congrArg String.data h
    simpa [natDecStr] using this
  exact natDecDigits_injective
    (map_digitChar_inj _ _ (natDecDigits_lt_ten a) (natDecDigits_lt_ten b) hdata)

/-! ### The S3 object store

`pkg/webdav/filesystem/s3` talks to a bucket through the minio client.  The
bucket is modelled as an association list from object keys to objects; an
object carries its byte content and its last-modified time (`PutObject`
records the caller-supplied clock value `now`).  Every wire operation
succeeds, which is the hypothesis of claims C1/C2; `RemoveObject` on a
missing key succeeds as well (S3 DELETE is idempotent). -/

/-- A stored S3 object: content bytes and last-modified time. -/
structure Obj where
  data : List Nat
  modTime : Nat
  deriving DecidableEq

/-- The bucket contents. -/
abbrev Store := List (String × Obj)

/-- `client.PutObject(bucket, key, data, size, opts)` — always succeeds. -/
def putObject (s : Store) (key : String) (data : List Nat) (now : Nat) : Store :=
  aput s key ⟨data, now⟩

/-- `client.GetObject` followed by reading the stream to the end. -/
def getObject (s : Store) (key : String) : Option Obj := aget s key

/-- `client.RemoveObject(bucket, key, minio.RemoveObjectOptions{ForceDelete: true})`. -/
def removeObject (s : Store) (key : String) : Store := aremove s key

/-- `client.CopyObject(dst, src)` — server-side copy; fails iff the source
object is missing. -/
def copyObject (s : Store) (dst src : String) : Option Store :=
  (aget s src).map fun o => aput s dst o

/-! ### The streaming upload buffer (`s3/file.go`, `streamingBuffer`) -/

/-- `defaultBufferSize = 10 * 1024 * 1024` (s3/file.go). -/
def defaultBufferSize : Nat := 10 * 1024 * 1024

/-- `defaultMaxParts = 10000` (s3/file.go) — "Maximum number of parts (S3
limit)"; in the source it is used only as the initial capacity of the
`partKeys` slice. -/
def defaultMaxParts : Nat := 10000

/-- `defaultPartPrefix = ".parts"` (s3/file.go). -/
def defaultPartPref : String := ".parts"

/-- State of a `streamingBuffer`.  `bufData` is `sb.buffer[:sb.bufferPos]`,
`bufSize` is `len(sb.buffer)`; the mutex is irrelevant in the sequential
embedding and `err`/`closed` are the error and `atomic.Bool` fields. -/
structure StreamingBuffer where
  key : String
  bufSize : Nat
  bufData : List Nat
  partNum : Nat
  partKeys : List String
  totalSize : Nat
  err : Bool
  closed : Bool
  deriving DecidableEq

/-- `sb.partPrefix = fmt.Sprintf("%s/%s", defaultPartPrefix, key)`. -/
def partPrefString (key : String) : String := defaultPartPref ++ "/" ++ key

/-- The key of part `n`: `fmt.Sprintf("%s/%d", sb.partPrefix, sb.partNum)`. -/
def mkPartKey (key : String) (n : Nat) : String :=
  partPrefString key ++ "/" ++ natDecStr n

/-- `newStreamingBuffer` (s3/file.go): a non-positive buffer size falls back
to `defaultBufferSize`.  (Go takes an `int`; non-positive collapses to `0`
in `Nat`.) -/
def newStreamingBuffer (key : String) (bufferSize : Nat) : StreamingBuffer :=
  { key := key
    bufSize := if bufferSize = 0 then defaultBufferSize else bufferSize
    bufData := []
    partNum := 0
    partKeys := []
    totalSize := 0
    err := false
    closed := false }

/-- `flushBufferLocked` (s3/file.go): upload `buffer[:bufferPos]` as part
`partNum`, append the part key, advance counters, clear the buffer.  A
`PutObject` failure cannot occur in the all-success store model. -/
def flushBufferLocked (now : Nat) (sb : StreamingBuffer) (s : Store) :
    StreamingBuffer × Store :=
  if sb.bufData = [] then (sb, s)
  else
    let partKey := mkPartKey sb.key sb.partNum
    ({ sb with
        partKeys := sb.partKeys ++ [partKey]
        totalSize := sb.totalSize + sb.bufData.length
        partNum := sb.partNum + 1
        bufData := [] },
      putObject s partKey sb.bufData now)

/-- The copy loop of `streamingBuffer.Write` (s3/file.go): repeatedly flush a
full buffer and copy `min(remaining, spaceLeft)` bytes.  The loop is embedded
with explicit fuel; every iteration with a positive buffer size consumes at
least one input byte, so fuel `p.length` suffices (see
`writeLoop_spec`).  Returns the state, the store and `totalWritten`. -/
def writeLoop (now : Nat) : Nat → StreamingBuffer → Store → List Nat → Nat →
    StreamingBuffer × Store × Nat
  | 0, sb, s, _, acc => (sb, s, acc)
  | fuel + 1, sb, s, p, acc =>
      if p = [] then (sb, s, acc)
      else
        let st := if sb.bufSize - sb.bufData.length = 0 then flushBufferLocked now sb s
                  else (sb, s)
        let spaceLeft := st.1.bufSize - st.1.bufData.length
        let toCopy := min p.length spaceLeft
        writeLoop now fuel { st.1 with bufData := st.1.bufData ++ p.take toCopy }
          st.2 (p.drop toCopy) (acc + toCopy)

/-- Errors surfaced by the embedded S3 layer (`os.ErrClosed`,
`os.ErrNotExist`, `filesystem.ErrNotSupported`, the "must open for read or
write" error, `io.EOF`, and wrapped backend failures). -/
inductive SErr where
  | closed
  | notExist
  | notSupported
  | mustOpenReadWrite
  | eof
  | ioFailed
  deriving DecidableEq

/-- `streamingBuffer.Write` (s3/file.go). -/
def sbWrite (now : Nat) (sb : StreamingBuffer) (s : Store) (p : List Nat) :
    (StreamingBuffer × Store) × Nat × Option SErr :=
  if sb.closed then ((sb, s), 0, some .closed)
  else if sb.err then ((sb, s), 0, some .ioFailed)
  else
    let (sb', s', n) := writeLoop now p.length sb s p 0
    ((sb', s'), n, none)

/-- A sequence of `Write` calls on the same handle. -/
def sbWriteAll (now : Nat) (ps : List (List Nat)) (sb : StreamingBuffer) (s : Store) :
    StreamingBuffer × Store :=
  ps.foldl (fun st p => (sbWrite now st.1 st.2 p).1) (sb, s)

/-- `cleanupPartsLocked` (s3/file.go): remove every uploaded part object and
clear the part list; `RemoveObject` never fails in the model, so the returned
`firstErr` is `nil`. -/
def cleanupPartsLocked (sb : StreamingBuffer) (s : Store) : StreamingBuffer × Store :=
  ({ sb with partKeys := [] }, sb.partKeys.foldl (fun acc k => removeObject acc k) s)

/-- The multi-part concatenation loop of `streamingBuffer.Close`: for each
subsequent part, download the part and the current target, concatenate, and
`PutObject` the combination back to the target key.  `none` signals a failed
`GetObject` (missing object), which cannot happen from a well-formed close. -/
def composeLoop (now : Nat) (key : String) : Store → List String → Option Store
  | s, [] => some s
  | s, pk :: rest =>
      match getObject s pk, getObject s key with
      | some part, some dest =>
          composeLoop now key (putObject s key (dest.data ++ part.data) now) rest
      | _, _ => none

/-- The publication part of `streamingBuffer.Close` (s3/file.go), run after
the residual buffer has been flushed: no part → empty object at the target
key, one part → server-side copy, many parts → copy part 0 then run the
concatenation loop; on success delete all part objects. -/
def sbCloseTail (now : Nat) (sb : StreamingBuffer) (s : Store) :
    (StreamingBuffer × Store) × Option SErr :=
  match sb.partKeys with
  | [] => ((sb, putObject s sb.key [] now), none)
  | [k0] =>
      match copyObject s sb.key k0 with
      | some s' => (cleanupPartsLocked sb s', none)
      | none => (cleanupPartsLocked { sb with err := true } s, some .ioFailed)
  | k0 :: k1 :: rest =>
      match copyObject s sb.key k0 with
      | none => (cleanupPartsLocked { sb with err := true } s, some .ioFailed)
      | some s' =>
          match composeLoop now sb.key s' (k1 :: rest) with
          | some s'' => (cleanupPartsLocked sb s'', none)
          | none => (cleanupPartsLocked { sb with err := true } s', some .ioFailed)

/-- `streamingBuffer.Close` (s3/file.go).  Swaps `closed` (second close is a
no-op returning `nil`), propagates a stored error after cleaning up, flushes
the remaining buffer, then publishes via `sbCloseTail`. -/
def sbClose (now : Nat) (sb : StreamingBuffer) (s : Store) :
    (StreamingBuffer × Store) × Option SErr :=
  if sb.closed then ((sb, s), none)
  else
    let sb := { sb with closed := true }
    if sb.err then (cleanupPartsLocked sb s, some .ioFailed)
    else
      let (sb, s) := if sb.bufData.length > 0 then flushBufferLocked now sb s else (sb, s)
      sbCloseTail now sb s

/-! ### Auxiliary facts about part keys -/

theorem string_data_inj {a b : String} (h : a.data = b.data) : a = b := by
  cases a with
  | mk la =>
      cases b with
      | mk lb => exact congrArg String.mk h

theorem string_data_append (a b : String) : (a ++ b).data = a.data ++ b.data := rfl

theorem string_length_eq (s : String) : s.length = s.data.length := rfl

/-- A key lies in the auxiliary region reserved for this handle's parts:
it has the form `.parts/<key>/<rest>`. -/
def PartKeyFor (key k : String) : Prop :=
  ∃ rest, k = partPrefString key ++ "/" ++ rest

theorem mkPartKey_partKeyFor (key : String) (n : Nat) :
    PartKeyFor key (mkPartKey key n) := ⟨natDecStr n, rfl⟩

theorem partKeyFor_length {key k : String} (h : PartKeyFor key k) :
    key.length + 8 ≤ k.length := by
  obtain ⟨rest, hrest⟩ := h
  subst hrest
  simp only [string_length_eq, partPrefString, defaultPartPref, string_data_append,
    List.length_append, List.length_cons, List.length_nil]
  omega

theorem partKeyFor_ne_key {key k : String} (h : PartKeyFor key k) : k ≠ key := by
  intro he
  have := partKeyFor_length h
  rw [he] at this
  omega

theorem mkPartKey_ne_key (key : String) (n : Nat) : mkPartKey key n ≠ key :=
  partKeyFor_ne_key (mkPartKey_partKeyFor key n)

theorem mkPartKey_inj (key : String) {m n : Nat} (h : mkPartKey key m = mkPartKey key n) :
    m = n := by
  have hdata := congrArg String.data h
  simp only [mkPartKey, string_data_append] at hdata
  have : (natDecStr m).data = (natDecStr n).data := List.append_cancel_left hdata
  exact natDecStr_injective (string_data_inj this)

/-! ### The streaming-buffer invariant (claims C1, C2)

After an arbitrary sequence of `Write` calls that delivered bytes `X`, the
uploaded parts (`chunks`) concatenated with the residual in-memory buffer
are exactly `X`, every uploaded part sits at its part key in the store,
every part uploaded by the write loop has exactly `bufSize` bytes, and no
other object lives under the handle's part region. -/

structure SBInv (key : String) (X : List Nat) (sb : StreamingBuffer) (s : Store) : Prop where
  hkey : sb.key = key
  hpos : 0 < sb.bufSize
  hbuf : sb.bufData.length ≤ sb.bufSize
  hkeys : sb.partKeys = (List.range sb.partNum).map (mkPartKey key)
  hparts : ∃ chunks : List (List Nat),
      chunks.length = sb.partNum ∧
      (∀ i, (h : i < chunks.length) → ∃ o : Obj,
          getObject s (mkPartKey key i) = some o ∧ o.data = chunks.get ⟨i, h⟩) ∧
      (∀ c ∈ chunks, c.length = sb.bufSize) ∧
      chunks.flatten ++ sb.bufData = X
  hclean : ∀ k, PartKeyFor key k → (∀ i, i < sb.partNum → k ≠ mkPartKey key i) →
      getObject s k = none
  herr : sb.err = false
  hclosed : sb.closed = false

theorem sbInv_init (key : String) (bufferSize : Nat) (s : Store)
    (hclean : ∀ k, PartKeyFor key k → getObject s k = none) :
    SBInv key [] (newStreamingBuffer key bufferSize) s := by
  refine ⟨rfl, ?_, by simp [newStreamingBuffer], by simp [newStreamingBuffer],
    ⟨[], by simp [newStreamingBuffer], by simp, by simp, by simp [newStreamingBuffer]⟩,
    fun k hk _ => hclean k hk, rfl, rfl⟩
  by_cases h : bufferSize = 0
  · simp [newStreamingBuffer, h, defaultBufferSize]
  · simp [newStreamingBuffer, h]
    omega

/-- Flushing a full buffer preserves the invariant. -/
theorem flushBufferLocked_inv (now : Nat) {key : String} {X : List Nat}
    {sb : StreamingBuffer} {s : Store} (inv : SBInv key X sb s)
    (hfull : sb.bufData.length = sb.bufSize) :
    SBInv key X (flushBufferLocked now sb s).1 (flushBufferLocked now sb s).2 ∧
      (flushBufferLocked now sb s).1.bufData = [] := by
  obtain ⟨hkey, hpos, hbuf, hkeys, ⟨chunks, hlen, hget, hchunk, hjoin⟩, hclean, herr, hclosed⟩ := inv
  subst hkey
  have hne : sb.bufData ≠ [] := by
    intro h
    rw [h] at hfull
    simp at hfull
    omega
  rw [flushBufferLocked, if_neg hne]
  refine ⟨⟨rfl, hpos, by simp, ?_, ?_, ?_, herr, hclosed⟩, rfl⟩
  · simp [hkeys, List.range_succ]
  · refine ⟨chunks ++ [sb.bufData], by simp [hlen], ?_, ?_, by simp [hjoin]⟩
    · intro i h
      simp only [List.length_append, List.length_singleton] at h
      by_cases hi : i < chunks.length
      · obtain ⟨o, ho, hod⟩ := hget i hi
        refine ⟨o, ?_, ?_⟩
        · show getObject (putObject s (mkPartKey sb.key sb.partNum) sb.bufData now) _ = some o
          rw [getObject, putObject, aget_aput_ne]
          · exact ho
          · intro hcol
            have := mkPartKey_inj sb.key hcol
            omega
        · rw [hod]
          simp only [List.get_eq_getElem]
          rw [List.getElem_append_left hi]
      · have hieq : i = chunks.length := by omega
        subst hieq
        refine ⟨⟨sb.bufData, now⟩, ?_, ?_⟩
        · show getObject (putObject s (mkPartKey sb.key sb.partNum) sb.bufData now) _ = _
          rw [getObject, putObject, hlen, aget_aput_self]
        · simp
    · intro c hc
      simp only [List.mem_append, List.mem_singleton] at hc
      rcases hc with hc | hc
      · exact hchunk c hc
      · rw [hc, hfull]
  · intro k hk hkne
    show getObject (putObject s (mkPartKey sb.key sb.partNum) sb.bufData now) k = none
    rw [getObject, putObject, aget_aput_ne]
    · refine hclean k hk fun i hi => ?_
      exact hkne i (Nat.lt_succ_of_lt hi)
    · exact hkne sb.partNum (Nat.lt_succ_self _)

/-- Appending at most the free space to the buffer preserves the invariant,
extending the delivered bytes. -/
theorem copyIn_inv {key : String} {X : List Nat} {sb : StreamingBuffer} {s : Store}
    (inv : SBInv key X sb s) (q : List Nat)
    (hq : sb.bufData.length + q.length ≤ sb.bufSize) :
    SBInv key (X ++ q) { sb with bufData := sb.bufData ++ q } s := by
  obtain ⟨hkey, hpos, hbuf, hkeys, ⟨chunks, hlen, hget, hchunk, hjoin⟩, hclean, herr, hclosed⟩ := inv
  refine ⟨hkey, hpos, by simpa using hq, hkeys,
    ⟨chunks, hlen, hget, hchunk, ?_⟩, hclean, herr, hclosed⟩
  show chunks.flatten ++ (sb.bufData ++ q) = X ++ q
  rw [← List.append_assoc, hjoin]

/-- Main write-loop lemma: with fuel at least `p.length` the loop consumes the
whole input, preserves the invariant with `X ++ p` delivered, and reports
`acc + p.length` bytes written (`totalWritten`). -/
theorem writeLoop_spec (now : Nat) (key : String) :
    ∀ (fuel : Nat) (sb : StreamingBuffer) (s : Store) (X p : List Nat) (acc : Nat),
      SBInv key X sb s → p.length ≤ fuel →
      SBInv key (X ++ p) (writeLoop now fuel sb s p acc).1 (writeLoop now fuel sb s p acc).2.1 ∧
        (writeLoop now fuel sb s p acc).2.2 = acc + p.length := by
  intro fuel
  induction fuel with
  | zero =>
      intro sb s X p acc inv hfuel
      have hp : p = [] := List.length_eq_zero.mp (Nat.le_zero.mp hfuel)
      subst hp
      simpa [writeLoop] using inv
  | succ fuel ih =>
      intro sb s X p acc inv hfuel
      by_cases hp : p = []
      · subst hp
        simpa [writeLoop] using inv
      · rcases hmid : (if sb.bufSize - sb.bufData.length = 0 then flushBufferLocked now sb s
            else (sb, s)) with ⟨sb1, s1⟩
        have hmidfacts : SBInv key X sb1 s1 ∧ 0 < sb1.bufSize - sb1.bufData.length := by
          by_cases hfull : sb.bufSize - sb.bufData.length = 0
          · rw [if_pos hfull] at hmid
            have hfl := flushBufferLocked_inv now inv (by
              have := inv.hbuf
              omega)
            rw [hmid] at hfl
            refine ⟨hfl.1, ?_⟩
            simp only at hfl
            rw [hfl.2]
            simpa using hfl.1.hpos
          · rw [if_neg hfull] at hmid
            cases hmid
            exact ⟨inv, by omega⟩
        obtain ⟨hinv1, hspace⟩ := hmidfacts
        have hloop : writeLoop now (fuel + 1) sb s p acc =
            writeLoop now fuel
              { sb1 with bufData :=
                  sb1.bufData ++ p.take (min p.length (sb1.bufSize - sb1.bufData.length)) }
              s1 (p.drop (min p.length (sb1.bufSize - sb1.bufData.length)))
              (acc + min p.length (sb1.bufSize - sb1.bufData.length)) := by
          conv_lhs => rw [writeLoop]
          rw [if_neg hp, hmid]
        rw [hloop]
        have htc : 0 < min p.length (sb1.bufSize - sb1.bufData.length) :=
          Nat.lt_min.mpr ⟨List.length_pos.mpr hp, hspace⟩
        have hcopy := copyIn_inv hinv1 (p.take (min p.length (sb1.bufSize - sb1.bufData.length)))
          (by
            rw [List.length_take]
            omega)
        have hrec := ih _ s1 _ (p.drop (min p.length (sb1.bufSize - sb1.bufData.length)))
          (acc + min p.length (sb1.bufSize - sb1.bufData.length)) hcopy (by
            rw [List.length_drop]
            omega)
        refine ⟨?_, ?_⟩
        · have harr : X ++ p.take (min p.length (sb1.bufSize - sb1.bufData.length)) ++
              p.drop (min p.length (sb1.bufSize - sb1.bufData.length)) = X ++ p := by
            rw [List.append_assoc, List.take_append_drop]
          rw [← harr]
          exact hrec.1
        · rw [hrec.2]
          rw [List.length_drop]
          omega

/-- `streamingBuffer.Write` on an open, error-free handle succeeds, returns
`len(p)` and preserves the invariant with `p` appended to the delivered
bytes. -/
theorem sbWrite_spec {key : String} {X : List Nat} {sb : StreamingBuffer} {s : Store}
    (inv : SBInv key X sb s) (now : Nat) (p : List Nat) :
    SBInv key (X ++ p) (sbWrite now sb s p).1.1 (sbWrite now sb s p).1.2 ∧
      (sbWrite now sb s p).2.1 = p.length ∧ (sbWrite now sb s p).2.2 = none := by
  rw [sbWrite, if_neg (by simp [inv.hclosed]), if_neg (by simp [inv.herr])]
  have h := writeLoop_spec now key p.length sb s X p 0 inv (Nat.le_refl _)
  refine ⟨?_, ?_, rfl⟩
  · simpa using h.1
  · simpa using h.2

/-- A whole sequence of `Write` calls preserves the invariant, delivering the
concatenation of all the write payloads. -/
theorem sbWriteAll_spec (now : Nat) {key : String} :
    ∀ (ps : List (List Nat)) {X : List Nat} {sb : StreamingBuffer} {s : Store},
      SBInv key X sb s →
      SBInv key (X ++ ps.flatten) (sbWriteAll now ps sb s).1 (sbWriteAll now ps sb s).2 := by
  intro ps
  induction ps with
  | nil =>
      intro X sb s inv
      simpa [sbWriteAll] using inv
  | cons p ps ih =>
      intro X sb s inv
      have h1 := (sbWrite_spec inv now p).1
      have h2 := ih h1
      have harr : X ++ p ++ ps.flatten = X ++ (p :: ps).flatten := by
        simp
      rw [← harr]
      simpa [sbWriteAll] using h2

/-- The part of the streaming-buffer invariant consumed by `Close` (the
chunk-size accounting of `SBInv` is not needed there, and `Close` flushes a
partial buffer). -/
structure SBCore (key : String) (X : List Nat) (sb : StreamingBuffer) (s : Store) : Prop where
  hkey : sb.key = key
  hkeys : sb.partKeys = (List.range sb.partNum).map (mkPartKey key)
  hparts : ∃ chunks : List (List Nat),
      chunks.length = sb.partNum ∧
      (∀ i, (h : i < chunks.length) → ∃ o : Obj,
          getObject s (mkPartKey key i) = some o ∧ o.data = chunks.get ⟨i, h⟩) ∧
      chunks.flatten ++ sb.bufData = X
  hclean : ∀ k, PartKeyFor key k → (∀ i, i < sb.partNum → k ≠ mkPartKey key i) →
      getObject s k = none

theorem SBInv.toCore {key : String} {X : List Nat} {sb : StreamingBuffer} {s : Store}
    (inv : SBInv key X sb s) : SBCore key X sb s := by
  obtain ⟨hkey, _, _, hkeys, ⟨chunks, hlen, hget, _, hjoin⟩, hclean, _, _⟩ := inv
  exact ⟨hkey, hkeys, ⟨chunks, hlen, hget, hjoin⟩, hclean⟩

/-- Flushing (of a buffer in any fill state) preserves the close-relevant
invariant and leaves an empty buffer. -/
theorem flushBufferLocked_core (now : Nat) {key : String} {X : List Nat}
    {sb : StreamingBuffer} {s : Store} (inv : SBCore key X sb s) :
    SBCore key X (flushBufferLocked now sb s).1 (flushBufferLocked now sb s).2 ∧
      (flushBufferLocked now sb s).1.bufData = [] := by
  obtain ⟨hkey, hkeys, ⟨chunks, hlen, hget, hjoin⟩, hclean⟩ := inv
  subst hkey
  by_cases hne : sb.bufData = []
  · rw [flushBufferLocked, if_pos hne]
    exact ⟨⟨rfl, hkeys, ⟨chunks, hlen, hget, hjoin⟩, hclean⟩, hne⟩
  · rw [flushBufferLocked, if_neg hne]
    refine ⟨⟨rfl, ?_, ?_, ?_⟩, rfl⟩
    · simp [hkeys, List.range_succ]
    · refine ⟨chunks ++ [sb.bufData], by simp [hlen], ?_, by simp [hjoin]⟩
      intro i h
      simp only [List.length_append, List.length_singleton] at h
      by_cases hi : i < chunks.length
      · obtain ⟨o, ho, hod⟩ := hget i hi
        refine ⟨o, ?_, ?_⟩
        · show getObject (putObject s (mkPartKey sb.key sb.partNum) sb.bufData now) _ = some o
          rw [getObject, putObject, aget_aput_ne]
          · exact ho
          · intro hcol
            have := mkPartKey_inj sb.key hcol
            omega
        · rw [hod]
          simp only [List.get_eq_getElem]
          rw [List.getElem_append_left hi]
      · have hieq : i = chunks.length := by omega
        subst hieq
        refine ⟨⟨sb.bufData, now⟩, ?_, ?_⟩
        · show getObject (putObject s (mkPartKey sb.key sb.partNum) sb.bufData now) _ = _
          rw [getObject, putObject, hlen, aget_aput_self]
        · simp
    · intro k hk hkne
      show getObject (putObject s (mkPartKey sb.key sb.partNum) sb.bufData now) k = none
      rw [getObject, putObject, aget_aput_ne]
      · refine hclean k hk fun i hi => ?_
        exact hkne i (Nat.lt_succ_of_lt hi)
      · exact hkne sb.partNum (Nat.lt_succ_self _)

/-- Reading through the part-deletion fold of `cleanupPartsLocked`. -/
theorem foldl_removeObject_get (k : String) :
    ∀ (ks : List String) (s : Store),
      getObject (ks.foldl (fun acc kk => removeObject acc kk) s) k =
        if k ∈ ks then none else getObject s k := by
  intro ks
  induction ks with
  | nil =>
      intro s
      simp
  | cons k0 ks ih =>
      intro s
      simp only [List.foldl_cons]
      rw [ih]
      by_cases hk0 : k = k0
      · subst hk0
        simp [removeObject, getObject, aget_aremove]
      · by_cases hmem : k ∈ ks
        · simp [hmem, hk0]
        · simp [hmem, hk0, removeObject, getObject, aget_aremove]

/-- The multi-part concatenation loop downloads each remaining part,
appends it to the target object, and touches no other key. -/
theorem composeLoop_spec (now : Nat) (key : String) :
    ∀ (pks : List String) (cs : List (List Nat)) (s : Store) (o : Obj),
      getObject s key = some o →
      List.Forall₂ (fun pk c => pk ≠ key ∧ ∃ o' : Obj, getObject s pk = some o' ∧ o'.data = c)
        pks cs →
      ∃ s', composeLoop now key s pks = some s' ∧
        (∃ o' : Obj, getObject s' key = some o' ∧ o'.data = o.data ++ cs.flatten) ∧
        ∀ k, k ≠ key → getObject s' k = getObject s k := by
  intro pks
  induction pks with
  | nil =>
      intro cs s o hkey hf
      cases hf
      exact ⟨s, rfl, ⟨o, hkey, by simp⟩, fun _ _ => rfl⟩
  | cons pk pks ih =>
      intro cs s o hkey hf
      cases hf with
      | @cons a b l₁ l₂ hhd htl =>
          obtain ⟨hpkne, o', ho', ho'data⟩ := hhd
          rw [composeLoop]
          rw [getObject] at ho' hkey
          simp only [getObject, ho', hkey]
          have hkey1 : getObject (putObject s key (o.data ++ o'.data) now) key =
              some ⟨o.data ++ o'.data, now⟩ := by
            rw [getObject, putObject, aget_aput_self]
          have htl1 : List.Forall₂ (fun pk c => pk ≠ key ∧ ∃ o'' : Obj,
              getObject (putObject s key (o.data ++ o'.data) now) pk = some o'' ∧ o''.data = c)
              pks l₂ := by
            refine htl.imp fun {a b} hab => ⟨hab.1, ?_⟩
            obtain ⟨oo, hoo, hood⟩ := hab.2
            refine ⟨oo, ?_, hood⟩
            rw [getObject, putObject, aget_aput_ne _ _ _ _ hab.1]
            exact hoo
          obtain ⟨s', hcomp, ⟨of, hof, hofd⟩, hframe⟩ := ih _ _ _ hkey1 htl1
          refine ⟨s', hcomp, ⟨of, hof, ?_⟩, ?_⟩
          · rw [hofd]
            simp [ho'data]
          · intro k hkne
            show getObject s' k = getObject s k
            rw [hframe k hkne, getObject, putObject, aget_aput_ne _ _ _ _ hkne]
            rfl

theorem flatten_eq_head_append {α : Type} (chunks : List (List α)) (h : 0 < chunks.length) :
    chunks.flatten = chunks.get ⟨0, h⟩ ++ (chunks.drop 1).flatten := by
  cases chunks with
  | nil => simp at h
  | cons c cs => simp

/-- `streamingBuffer.Close` on a handle satisfying the invariant publishes
exactly the delivered bytes at the target key, reports no error, and leaves
nothing under the handle's part-key region. -/
theorem sbClose_spec (now : Nat) {key : String} {X : List Nat} {sb : StreamingBuffer}
    {s : Store} (inv : SBInv key X sb s) :
    (sbClose now sb s).2 = none ∧
    (∃ o : Obj, getObject (sbClose now sb s).1.2 key = some o ∧ o.data = X) ∧
    ∀ k, PartKeyFor key k → getObject (sbClose now sb s).1.2 k = none := by
  have hclosed := inv.hclosed
  have herr := inv.herr
  have hcore : SBCore key X ({ sb with closed := true }) s := by
    obtain ⟨hkey, _, _, hkeys, ⟨chunks, hlen, hget, _, hjoin⟩, hclean, _, _⟩ := inv
    exact ⟨hkey, hkeys, ⟨chunks, hlen, hget, hjoin⟩, hclean⟩
  rcases hflceq : flushBufferLocked now { sb with closed := true } s with ⟨sb2, s2⟩
  have hflc := flushBufferLocked_core now hcore
  rw [hflceq] at hflc
  obtain ⟨⟨hkey2, hkeys2, ⟨chunks, hlen, hget, hjoin⟩, hclean2⟩, hbuf2⟩ := hflc
  simp only at hkey2 hkeys2 hclean2 hbuf2 hjoin hget hlen
  rw [hbuf2, List.append_nil] at hjoin
  have hstep : (if ({ sb with closed := true } : StreamingBuffer).bufData.length > 0
      then flushBufferLocked now { sb with closed := true } s
      else ({ sb with closed := true }, s)) = (sb2, s2) := by
    by_cases h : sb.bufData = []
    · rw [if_neg (by simp [h]), ← hflceq, flushBufferLocked, if_pos (by simpa using h)]
    · rw [if_pos (by simp [List.length_pos.mpr h]), hflceq]
  have hpkget : ∀ j, (hj : j < sb2.partKeys.length) →
      sb2.partKeys.get ⟨j, hj⟩ = mkPartKey key j := by
    intro j hj
    simp [hkeys2]
  have hnotmem_key : key ∉ sb2.partKeys := by
    intro hmem
    rw [hkeys2] at hmem
    obtain ⟨j, _, hj⟩ := List.mem_map.mp hmem
    exact mkPartKey_ne_key key j hj
  have hred : sbClose now sb s = sbCloseTail now sb2 s2 := by
    rw [sbClose, if_neg (by simp [hclosed]), if_neg (by simp [herr]), hstep]
  rw [hred]
  rcases hpk2 : sb2.partKeys with _ | ⟨k0, _ | ⟨k1, rest⟩⟩
  · -- CLOSE_ZERO: no parts uploaded, write an empty object at the target key
    simp only [sbCloseTail, hpk2]
    have hn0 : sb2.partNum = 0 := by
      rw [hpk2] at hkeys2
      have := congrArg List.length hkeys2
      simpa using this.symm
    have hchn : chunks = [] := by
      rw [hn0] at hlen
      exact List.length_eq_zero.mp hlen
    have hX : X = [] := by
      rw [← hjoin, hchn]
      rfl
    refine ⟨trivial, ⟨⟨[], now⟩, ?_, hX.symm⟩, ?_⟩
    · show getObject (putObject s2 sb2.key [] now) key = _
      rw [hkey2, getObject, putObject, aget_aput_self]
    · intro k hk
      show getObject (putObject s2 sb2.key [] now) k = none
      rw [hkey2, getObject, putObject, aget_aput_ne _ _ _ _ (partKeyFor_ne_key hk)]
      refine hclean2 k hk fun i hi => ?_
      rw [hn0] at hi
      omega
  · -- CLOSE_ONE: a single part, server-side copied to the target key
    simp only [sbCloseTail, hpk2]
    have hn1 : sb2.partNum = 1 := by
      rw [hpk2] at hkeys2
      have := congrArg List.length hkeys2
      simpa using this.symm
    have hk0 : k0 = mkPartKey key 0 := by
      have h := hpkget 0 (by rw [hpk2]; simp)
      rw [← h]
      simp [hpk2]
    obtain ⟨c0, hchn⟩ : ∃ c0, chunks = [c0] := by
      rw [hn1] at hlen
      cases chunks with
      | nil => simp at hlen
      | cons c cs =>
          cases cs with
          | nil => exact ⟨c, rfl⟩
          | cons d ds => simp at hlen
    obtain ⟨o0, ho0, ho0d⟩ := hget 0 (by rw [hchn]; simp)
    have ho0d' : o0.data = c0 := by
      rw [ho0d]
      simp [hchn]
    have hcopy : copyObject s2 sb2.key k0 = some (aput s2 key o0) := by
      rw [hkey2, hk0, copyObject]
      rw [getObject] at ho0
      rw [ho0]
      rfl
    simp only [hcopy]
    have hkey_ne_k0 : key ≠ k0 := by
      rw [hk0]
      exact fun h => mkPartKey_ne_key key 0 h.symm
    refine ⟨trivial, ⟨o0, ?_, ?_⟩, ?_⟩
    · show getObject (sb2.partKeys.foldl (fun acc k => removeObject acc k) (aput s2 key o0)) key =
        some o0
      rw [foldl_removeObject_get, if_neg hnotmem_key, getObject, aget_aput_self]
    · rw [ho0d']
      rw [← hjoin, hchn]
      simp
    · intro k hk
      show getObject (sb2.partKeys.foldl (fun acc k => removeObject acc k) (aput s2 key o0)) k =
        none
      rw [foldl_removeObject_get]
      by_cases hmem : k ∈ sb2.partKeys
      · rw [if_pos hmem]
      · rw [if_neg hmem, getObject, aget_aput_ne _ _ _ _ (partKeyFor_ne_key hk)]
        refine hclean2 k hk fun i hi => ?_
        rw [hn1] at hi
        have : i = 0 := by omega
        subst this
        rw [← hk0]
        intro hke
        rw [hke] at hmem
        exact hmem (by rw [hpk2]; simp)
  · -- CLOSE_MANY: copy part 0, then append every subsequent part
    simp only [sbCloseTail, hpk2]
    have hn2 : sb2.partNum = rest.length + 2 := by
      rw [hpk2] at hkeys2
      have := congrArg List.length hkeys2
      simpa using this.symm
    have hchlen : chunks.length = rest.length + 2 := by
      rw [hlen, hn2]
    have hk0 : k0 = mkPartKey key 0 := by
      have h := hpkget 0 (by rw [hpk2]; simp)
      rw [← h]
      simp [hpk2]
    obtain ⟨o0, ho0, ho0d⟩ := hget 0 (by omega)
    have hcopy : copyObject s2 sb2.key k0 = some (aput s2 key o0) := by
      rw [hkey2, hk0, copyObject]
      rw [getObject] at ho0
      rw [ho0]
      rfl
    simp only [hcopy]
    -- the concatenation loop
    have hkey1 : getObject (aput s2 key o0) key = some o0 := by
      rw [getObject, aget_aput_self]
    have hfar : List.Forall₂ (fun pk c => pk ≠ key ∧ ∃ o' : Obj,
        getObject (aput s2 key o0) pk = some o' ∧ o'.data = c) (k1 :: rest) (chunks.drop 1) := by
      rw [List.forall₂_iff_get]
      refine ⟨by simp [hchlen], ?_⟩
      intro j h₁ h₂
      have hj2 : j + 1 < sb2.partKeys.length := by
        rw [hpk2]
        simp only [List.length_cons] at h₁ ⊢
        omega
      have hgetj : (k1 :: rest).get ⟨j, h₁⟩ = mkPartKey key (j + 1) := by
        have h := hpkget (j + 1) hj2
        rw [← h]
        simp [hpk2]
      rw [hgetj]
      refine ⟨mkPartKey_ne_key key (j + 1) ∘ id, ?_⟩
      obtain ⟨oj, hoj, hojd⟩ := hget (j + 1) (by
        simp only [List.length_drop] at h₂
        omega)
      refine ⟨oj, ?_, ?_⟩
      · rw [getObject, aget_aput_ne _ _ _ _ (mkPartKey_ne_key key (j + 1))]
        exact hoj
      · rw [hojd]
        simp only [List.get_eq_getElem, List.getElem_drop]
        congr 1
        omega
    obtain ⟨s4, hcomp, ⟨of, hof, hofd⟩, hframe⟩ :=
      composeLoop_spec now key (k1 :: rest) (chunks.drop 1) (aput s2 key o0) o0 hkey1 hfar
    rw [hkey2]
    simp only [hcomp]
    refine ⟨trivial, ⟨of, ?_, ?_⟩, ?_⟩
    · show getObject (sb2.partKeys.foldl (fun acc k => removeObject acc k) s4) key = some of
      rw [foldl_removeObject_get, if_neg hnotmem_key]
      exact hof
    · rw [hofd, ho0d, ← hjoin]
      exact (flatten_eq_head_append chunks (by omega)).symm
    · intro k hk
      show getObject (sb2.partKeys.foldl (fun acc k => removeObject acc k) s4) k = none
      rw [foldl_removeObject_get]
      by_cases hmem : k ∈ sb2.partKeys
      · rw [if_pos hmem]
      · rw [if_neg hmem]
        rw [hframe k (partKeyFor_ne_key hk), getObject,
          aget_aput_ne _ _ _ _ (partKeyFor_ne_key hk)]
        refine hclean2 k hk fun i hi hke => ?_
        refine hmem ?_
        rw [hkeys2, hke]
        exact List.mem_map.mpr ⟨i, List.mem_range.mpr hi, rfl⟩

/-- One complete streaming-upload run: open a fresh handle, issue a sequence
of `Write` calls, then `Close`. -/
def streamUploadRun (bufferSize now : Nat) (key : String) (ps : List (List Nat))
    (s0 : Store) : (StreamingBuffer × Store) × Option SErr :=
  let st := sbWriteAll now ps (newStreamingBuffer key bufferSize) s0
  sbClose now st.1 st.2

/-! ### Size accounting for the part bound (claim C2) -/

theorem flatten_length_const {B : Nat} :
    ∀ (chunks : List (List Nat)), (∀ c ∈ chunks, c.length = B) →
      chunks.flatten.length = B * chunks.length := by
  intro chunks
  induction chunks with
  | nil => simp
  | cons c cs ih =>
      intro h
      have hc : c.length = B := h c (by simp)
      have hcs := ih fun d hd => h d (by simp [hd])
      simp only [List.flatten_cons, List.length_append, hc, hcs, List.length_cons]
      ring

theorem sbInv_account {key : String} {X : List Nat} {sb : StreamingBuffer} {s : Store}
    (inv : SBInv key X sb s) :
    sb.bufSize * sb.partNum + sb.bufData.length = X.length ∧
      sb.partKeys.length = sb.partNum := by
  obtain ⟨_, _, _, hkeys, ⟨chunks, hlen, _, hchunk, hjoin⟩, _, _, _⟩ := inv
  constructor
  · have h1 := congrArg List.length hjoin
    rw [List.length_append, flatten_length_const chunks hchunk, hlen] at h1
    exact h1
  · rw [hkeys]
    simp

theorem flushBufferLocked_bufSize (now : Nat) (sb : StreamingBuffer) (s : Store) :
    (flushBufferLocked now sb s).1.bufSize = sb.bufSize := by
  by_cases h : sb.bufData = []
  · rw [flushBufferLocked, if_pos h]
  · rw [flushBufferLocked, if_neg h]

theorem writeLoop_bufSize (now : Nat) :
    ∀ (fuel : Nat) (sb : StreamingBuffer) (s : Store) (p : List Nat) (acc : Nat),
      (writeLoop now fuel sb s p acc).1.bufSize = sb.bufSize := by
  intro fuel
  induction fuel with
  | zero =>
      intro sb s p acc
      rfl
  | succ fuel ih =>
      intro sb s p acc
      by_cases hp : p = []
      · rw [writeLoop, if_pos hp]
      · rcases hmid : (if sb.bufSize - sb.bufData.length = 0 then flushBufferLocked now sb s
            else (sb, s)) with ⟨sb1, s1⟩
        have hsz : sb1.bufSize = sb.bufSize := by
          by_cases hfull : sb.bufSize - sb.bufData.length = 0
          · rw [if_pos hfull] at hmid
            rw [← flushBufferLocked_bufSize now sb s, hmid]
          · rw [if_neg hfull] at hmid
            cases hmid
            rfl
        have hloop : writeLoop now (fuel + 1) sb s p acc =
            writeLoop now fuel
              { sb1 with bufData :=
                  sb1.bufData ++ p.take (min p.length (sb1.bufSize - sb1.bufData.length)) }
              s1 (p.drop (min p.length (sb1.bufSize - sb1.bufData.length)))
              (acc + min p.length (sb1.bufSize - sb1.bufData.length)) := by
          conv_lhs => rw [writeLoop]
          rw [if_neg hp, hmid]
        rw [hloop, ih]
        exact hsz

theorem sbWrite_bufSize (now : Nat) (sb : StreamingBuffer) (s : Store) (p : List Nat) :
    (sbWrite now sb s p).1.1.bufSize = sb.bufSize := by
  rw [sbWrite]
  by_cases h1 : sb.closed
  · rw [if_pos h1]
  · rw [if_neg h1]
    by_cases h2 : sb.err
    · rw [if_pos h2]
    · rw [if_neg h2]
      simp [writeLoop_bufSize]

/-! ### Claim theorems: C1 and C2 -/

/-- **C1** (confirmed).  ObjectFS streaming upload close-publish correctness:
starting from a store with nothing under the handle's part region, after any
sequence of `Write` calls delivering bytes `X = ps.flatten` (all store
operations succeeding), the first `Close` reports no error, materializes the
object at the target key with content exactly `X` (in particular a handle
closed with zero bytes written publishes an empty object), and leaves no
object under the part prefix. -/
theorem C1_streaming_close_publishes (bufferSize now : Nat) (key : String)
    (ps : List (List Nat)) (s0 : Store)
    (hclean : ∀ k, PartKeyFor key k → getObject s0 k = none) :
    (streamUploadRun bufferSize now key ps s0).2 = none ∧
    ((getObject (streamUploadRun bufferSize now key ps s0).1.2 key).map Obj.data =
      some ps.flatten) ∧
    ∀ k, PartKeyFor key k → getObject (streamUploadRun bufferSize now key ps s0).1.2 k = none := by
  have inv0 := sbInv_init key bufferSize s0 hclean
  have inv1 := sbWriteAll_spec now ps inv0
  rw [List.nil_append] at inv1
  have h := sbClose_spec now inv1
  refine ⟨h.1, ?_, h.2.2⟩
  obtain ⟨o, ho, hod⟩ := h.2.1
  rw [streamUploadRun]
  rw [ho]
  simp [hod]

/-- Witness for C1 at a concrete input: buffer size 2, a single 3-byte write,
empty initial store. -/
theorem C1_streaming_close_publishes_witness :
    (streamUploadRun 2 0 "f" [[1, 2, 3]] []).2 = none ∧
    ((getObject (streamUploadRun 2 0 "f" [[1, 2, 3]] []).1.2 "f").map Obj.data =
      some [1, 2, 3]) ∧
    getObject (streamUploadRun 2 0 "f" [[1, 2, 3]] []).1.2 (mkPartKey "f" 0) = none := by
  have h := C1_streaming_close_publishes 2 0 "f" [[1, 2, 3]] [] (fun k _ => rfl)
  exact ⟨h.1, h.2.1, h.2.2 _ (mkPartKey_partKeyFor "f" 0)⟩

/-- **C2 counterexample.**  The source never checks `defaultMaxParts`: with a
1-byte buffer, a single `Write` of 10002 bytes uploads more than 10000 parts
and reports no error at all (no `EIO`), refuting the claimed bound. -/
theorem C2_counterexample :
    (sbWrite 0 (newStreamingBuffer "f" 1) [] (List.replicate 10002 0)).2.2 = none ∧
    10000 < (sbWrite 0 (newStreamingBuffer "f" 1) [] (List.replicate 10002 0)).1.1.partNum := by
  have inv0 := sbInv_init "f" 1 [] (fun k _ => rfl)
  have h := sbWrite_spec inv0 0 (List.replicate 10002 0)
  have inv1 := h.1
  rw [List.nil_append] at inv1
  refine ⟨h.2.2, ?_⟩
  have hacc := (sbInv_account inv1).1
  have hbuf := inv1.hbuf
  have hsize : (sbWrite 0 (newStreamingBuffer "f" 1) [] (List.replicate 10002 0)).1.1.bufSize
      = 1 := by
    rw [sbWrite_bufSize]
    rfl
  rw [hsize] at hacc hbuf
  rw [List.length_replicate] at hacc
  omega

/-- **C2** (amended).  `defaultMaxParts` is only the initial capacity of the
part-key list; no bound is enforced.  Any sequence of writes on a fresh
handle leaves the handle error-free, and the number of uploaded parts is
determined solely by the byte count and the buffer size
(`bufSize * partNum + residual = total`), growing without limit. -/
theorem C2_amended_no_part_bound (bufferSize now : Nat) (key : String)
    (ps : List (List Nat)) (s0 : Store)
    (hclean : ∀ k, PartKeyFor key k → getObject s0 k = none) :
    (sbWriteAll now ps (newStreamingBuffer key bufferSize) s0).1.err = false ∧
    (sbWriteAll now ps (newStreamingBuffer key bufferSize) s0).1.partKeys.length =
      (sbWriteAll now ps (newStreamingBuffer key bufferSize) s0).1.partNum ∧
    (sbWriteAll now ps (newStreamingBuffer key bufferSize) s0).1.bufSize *
        (sbWriteAll now ps (newStreamingBuffer key bufferSize) s0).1.partNum +
        (sbWriteAll now ps (newStreamingBuffer key bufferSize) s0).1.bufData.length =
      ps.flatten.length := by
  have inv0 := sbInv_init key bufferSize s0 hclean
  have inv1 := sbWriteAll_spec now ps inv0
  rw [List.nil_append] at inv1
  exact ⟨inv1.herr, (sbInv_account inv1).2, (sbInv_account inv1).1⟩

/-- Witness for the amended C2 at a concrete input. -/
theorem C2_amended_no_part_bound_witness :
    (sbWriteAll 0 [[7, 7, 7]] (newStreamingBuffer "f" 1) []).1.err = false ∧
    (sbWriteAll 0 [[7, 7, 7]] (newStreamingBuffer "f" 1) []).1.partKeys.length =
      (sbWriteAll 0 [[7, 7, 7]] (newStreamingBuffer "f" 1) []).1.partNum ∧
    (sbWriteAll 0 [[7, 7, 7]] (newStreamingBuffer "f" 1) []).1.bufSize *
        (sbWriteAll 0 [[7, 7, 7]] (newStreamingBuffer "f" 1) []).1.partNum +
        (sbWriteAll 0 [[7, 7, 7]] (newStreamingBuffer "f" 1) []).1.bufData.length = 3 := by
  have h := C2_amended_no_part_bound 1 0 "f" [[7, 7, 7]] [] (fun k _ => rfl)
  exact h

/-! ### Path helpers (`strings.Trim`/`TrimPrefix`/`TrimSuffix`,
`filepath.Base`/`Clean`/`Join` restricted to slash-separated paths) -/

/-- `strings.Trim(s, "/")`. -/
def trimSlashes (p : String) : String :=
  String.mk (((p.data.dropWhile (fun c => c == '/')).reverse.dropWhile
    (fun c => c == '/')).reverse)

/-- `clean` of `s3/filesystem.go`: trim slashes; empty becomes the root. -/
def cleanName (name : String) : String :=
  let name := trimSlashes name
  if name = "" then "/" else name

/-- `strings.TrimPrefix`. -/
def trimPrefixStr (s pre : String) : String :=
  if pre.data.isPrefixOf s.data then String.mk (s.data.drop pre.data.length) else s

/-- `strings.TrimSuffix`. -/
def trimSuffixStr (s suf : String) : String :=
  if suf.data.isSuffixOf s.data then String.mk (s.data.take (s.data.length - suf.data.length))
  else s

/-- `filepath.Base`. -/
def basename (p : String) : String :=
  if p = "" then "."
  else
    let cs := p.data.reverse.dropWhile (fun c => c == '/')
    if cs = [] then "/"
    else String.mk ((cs.takeWhile (fun c => !(c == '/'))).reverse)

/-- `filepath.Clean` on slash-separated paths: drop empty and `.` segments,
resolve `..` (popping a previous segment; a rooted path never escapes the
root, a relative path keeps leading `..`), re-join. -/
def cleanPath (p : String) : String :=
  let rooted := p.data.head? = some '/'
  let segs := (p.data.splitOn '/').foldl (fun acc seg =>
      if seg = [] ∨ seg = ['.'] then acc
      else if seg = ['.', '.'] then
        if rooted then acc.dropLast
        else if acc ≠ [] ∧ acc.getLast? ≠ some ['.', '.'] then acc.dropLast
        else acc ++ [seg]
      else acc ++ [seg]) []
  let joined := List.intercalate ['/'] segs
  if joined = [] then (if rooted then "/" else ".")
  else String.mk ((if rooted then ['/'] else []) ++ joined)

/-- `filepath.Join` of two elements. -/
def joinPath (a b : String) : String :=
  if a = "" then cleanPath b else cleanPath (a ++ "/" ++ b)

/-! ### Listing, stat and readdir (`s3/util.go`) -/

/-- `keepDirFile = ".keepdir"` (s3/filesystem.go). -/
def keepDirFileName : String := ".keepdir"

/-- `defaultFileMode = 0o644` (s3/util.go). -/
def defaultFileMode : Nat := 0o644

/-- `os.ModeDir`. -/
def modeDir : Nat := 2 ^ 31

/-- Projection of a `minio.ObjectInfo` received from `ListObjects`: a real
object carries its key, size and last-modified time; a common-prefix entry
carries the prefix as key (ending in the delimiter) with zero size and zero
time. -/
structure MObj where
  key : String
  size : Nat
  modTime : Nat
  deriving DecidableEq

/-- The embedded `os.FileInfo` produced by the adapter. -/
structure FInfo where
  name : String
  size : Nat
  modTime : Nat
  isDir : Bool
  mode : Nat
  deriving DecidableEq

/-- Modelled from the spec: `FromObjectInfo` and the s3 `FileInfo`
implementation are not present under `src/` (only their call sites in
`util.go` are).  Per the spec, Readdir "yield[s] synthetic `FileInfo` per
common-prefix (directory) and per object"; a common-prefix key ends in the
delimiter, and the entry name is the path base. -/
def FromObjectInfo (obj : MObj) : FInfo :=
  let isDir := obj.key.data.getLast? == some '/'
  { name := basename obj.key
    size := obj.size
    modTime := obj.modTime
    isDir := isDir
    mode := if isDir then modeDir ||| defaultFileMode else defaultFileMode }

/-- `client.ListObjects(bucket, {Prefix: pre, Recursive: false})`: every
object key carrying the prefix is reported; a key whose remainder contains
the delimiter is folded into a common-prefix entry (deduplicated, reported
at first occurrence), as the S3 delimiter listing does. -/
def listLoop (pre : List Char) : Store → List (List Char) → List MObj
  | [], _ => []
  | (k, o) :: rest, seen =>
      if pre.isPrefixOf k.data then
        let suffix := k.data.drop pre.length
        if suffix.any (fun c => c == '/') then
          let cp := pre ++ suffix.takeWhile (fun c => !(c == '/')) ++ ['/']
          if cp ∈ seen then listLoop pre rest seen
          else ⟨String.mk cp, 0, 0⟩ :: listLoop pre rest (cp :: seen)
        else ⟨k, o.data.length, o.modTime⟩ :: listLoop pre rest seen
      else listLoop pre rest seen

def listObjects (s : Store) (pre : String) : List MObj := listLoop pre.data s []

/-- The collection loop of `readdir` (s3/util.go): skip the directory
itself, skip ignored base names (`slices.Index(ignored, filepath.Base(key))`),
stop early once `count` entries are collected. -/
def readdirLoop (name : String) (ignored : List String) (count : Int) :
    List MObj → List FInfo → List FInfo
  | [], fis => fis
  | obj :: rest, fis =>
      if trimSuffixStr obj.key "/" = trimPrefixStr name "/" then
        readdirLoop name ignored count rest fis
      else if ignored.contains (basename obj.key) then
        readdirLoop name ignored count rest fis
      else
        let fis := fis ++ [FromObjectInfo obj]
        if 0 < count ∧ count ≤ (fis.length : Int) then fis
        else readdirLoop name ignored count rest fis

/-- `readdir` (s3/util.go). -/
def readdirModel (s : Store) (name : String) (count : Int) (ignored : List String) :
    Except SErr (List FInfo) :=
  let p := cleanName name
  let pre := if p = "." ∨ p = "/" then "" else trimSlashes p ++ "/"
  let fis := readdirLoop name ignored count (listObjects s pre) []
  if 0 < count ∧ fis.length = 0 then .error .eof else .ok fis

/-- `statDir` (s3/util.go): list under `name + "/"`, fold the maximal
last-modified time (zero-initialized), report a 4096-byte directory when any
nonzero time was seen, `ENOENT` otherwise. -/
def statDirModel (s : Store) (name0 : String) : Except SErr FInfo :=
  let name := cleanName name0
  let pre := name ++ "/"
  let objs := listObjects s pre
  let mt := objs.foldl (fun acc o => if acc < o.modTime then o.modTime else acc) 0
  if mt ≠ 0 then .ok ⟨basename name, 4096, mt, true, modeDir ||| defaultFileMode⟩
  else .error .notExist

/-- `stat` (s3/util.go): the root is a synthetic 4096-byte directory stamped
with the current time; otherwise HEAD the object, falling back to `statDir`
on `NoSuchKey`. -/
def statModel (s : Store) (nowT : Nat) (name0 : String) : Except SErr FInfo :=
  let name := cleanName name0
  if name = "." ∨ name = "/" then
    .ok ⟨basename name, 4096, nowT, true, defaultFileMode⟩
  else
    let name := cleanPath name
    match aget s (trimPrefixStr name "/") with
    | some o => .ok ⟨basename name, o.data.length, o.modTime, false, defaultFileMode⟩
    | none => statDirModel s name

/-! ### File handles and `OpenFile` (`s3/file.go`, `s3/filesystem.go`) -/

/-- Go `os` flag values (linux). -/
def oWRONLY : Nat := 0x1
def oRDWR : Nat := 0x2
def oCREATE : Nat := 0x40
def oEXCL : Nat := 0x80
def oTRUNC : Nat := 0x200
def oAPPEND : Nat := 0x400

/-- An s3 `File`: `obj` is the read stream (`nil` for write handles; the
`GetObject` call itself always succeeds, the stream later yields the object
looked up at open time), `streamBuf` the write-side streaming buffer. -/
structure SFile where
  key : String
  obj : Option (Option Obj)
  streamBuf : Option StreamingBuffer
  deriving DecidableEq

/-- `NewFile` (s3/file.go): any of `O_WRONLY|O_RDWR|O_CREATE|O_TRUNC` makes
a write handle (streaming buffer, no read object); otherwise `flag == 0` or
`O_RDWR` makes a read handle; otherwise the open is rejected. -/
def NewFile (s : Store) (key : String) (flag : Nat) : Except SErr SFile :=
  if flag &&& (oWRONLY ||| oRDWR ||| oCREATE ||| oTRUNC) ≠ 0 then
    .ok ⟨key, none, some (newStreamingBuffer key defaultBufferSize)⟩
  else if flag = 0 ∨ flag &&& oRDWR ≠ 0 then
    .ok ⟨key, some (aget s key), none⟩
  else .error .mustOpenReadWrite

/-- `File.Read` (s3/file.go): a handle without a read object reports
`os.ErrClosed`; otherwise the stream yields the object content (or fails if
the object never existed). -/
def fileRead (f : SFile) : Except SErr (List Nat) :=
  match f.obj with
  | none => .error .closed
  | some none => .error .notExist
  | some (some o) => .ok o.data

/-- `File.Seek` (s3/file.go): a handle without a read object reports
`os.ErrClosed`; the offset bookkeeping of the underlying stream is not
modelled further. -/
def fileSeek (f : SFile) (offset : Int) : Except SErr Int :=
  match f.obj with
  | none => .error .closed
  | some _ => .ok offset

/-- `File.Readdir` (s3/file.go): lists the handle's key with
`ignored = [".keepdir", ".parts"]`. -/
def fileReaddir (s : Store) (f : SFile) (count : Int) : Except SErr (List FInfo) :=
  readdirModel s f.key count [keepDirFileName, defaultPartPref]

/-- `FileSystem.OpenFile` (s3/filesystem.go): clean the name, reject
`O_APPEND` with `ErrNotSupported`, build the handle, and for `O_CREATE`
write an empty byte slice through the handle. -/
def s3OpenFile (s : Store) (name0 : String) (flag : Nat) : Except SErr (SFile × Store) :=
  let name := cleanName name0
  if flag &&& oAPPEND ≠ 0 then .error .notSupported
  else
    match NewFile s name flag with
    | .error e => .error e
    | .ok file =>
        if flag &&& oCREATE ≠ 0 then
          match file.streamBuf with
          | none => .error .closed
          | some sb =>
              match sbWrite 0 sb s [] with
              | ((sb', s'), _, none) => .ok ({ file with streamBuf := some sb' }, s')
              | (_, _, some e) => .error e
        else .ok (file, s)

/-- `FileSystem.RemoveAll` (s3/filesystem.go): stat (missing target → `nil`);
directories are listed **non-recursively** and each entry's join with the
directory name is removed as a single object; files are removed directly. -/
def s3RemoveAll (s : Store) (nowT : Nat) (name0 : String) : Except SErr Store :=
  let name := cleanName name0
  match statModel s nowT name with
  | .error e => if e = .notExist then .ok s else .error e
  | .ok info =>
      if info.isDir then
        match readdirModel s name (-1) [] with
        | .error e => if e = .notExist then .ok s else .error e
        | .ok fis =>
            .ok (fis.foldl (fun acc fi => removeObject acc (joinPath name fi.name)) s)
      else .ok (removeObject s name)

/-! ### Claim theorems: C3, C4, C8, C10 -/

/-- Every entry emitted by the readdir collection loop either was already in
the accumulator or has a base name outside the ignored list. -/
theorem readdirLoop_mem (name : String) (ignored : List String) (count : Int) :
    ∀ (objs : List MObj) (acc : List FInfo) (fi : FInfo),
      fi ∈ readdirLoop name ignored count objs acc →
      fi ∈ acc ∨ ignored.contains fi.name = false := by
  intro objs
  induction objs with
  | nil =>
      intro acc fi h
      rw [readdirLoop] at h
      exact Or.inl h
  | cons obj rest ih =>
      intro acc fi h
      rw [readdirLoop] at h
      by_cases h1 : trimSuffixStr obj.key "/" = trimPrefixStr name "/"
      · rw [if_pos h1] at h
        exact ih acc fi h
      · rw [if_neg h1] at h
        by_cases h2 : ignored.contains (basename obj.key)
        · rw [if_pos h2] at h
          exact ih acc fi h
        · rw [if_neg h2] at h
          have hname : (FromObjectInfo obj).name = basename obj.key := rfl
          by_cases h3 : 0 < count ∧ count ≤ ((acc ++ [FromObjectInfo obj]).length : Int)
          · rw [if_pos h3] at h
            rcases List.mem_append.mp h with hacc | hnew
            · exact Or.inl hacc
            · right
              rw [List.mem_singleton.mp hnew, hname]
              exact Bool.eq_false_iff.mpr h2
          · rw [if_neg h3] at h
            rcases ih _ fi h with hacc | hfree
            · rcases List.mem_append.mp hacc with hacc' | hnew
              · exact Or.inl hacc'
              · right
                rw [List.mem_singleton.mp hnew, hname]
                exact Bool.eq_false_iff.mpr h2
            · exact Or.inr hfree

/-- **C3 counterexample.**  `OpenFile` does not refuse paths under the
reserved `.parts/` prefix: opening `.parts/f/0` read-only succeeds and
returns an ordinary read handle. -/
theorem C3_counterexample :
    s3OpenFile [(".parts/f/0", ⟨[1], 1⟩)] ".parts/f/0" 0 =
      .ok (⟨".parts/f/0", some (some ⟨[1], 1⟩), none⟩, [(".parts/f/0", ⟨[1], 1⟩)]) := by
  decide

/-- **C3** (amended).  `File.Readdir` filters every entry whose base name is
`.parts` or `.keepdir` (so neither ever reaches a caller through Readdir),
but `OpenFile` does not special-case `.parts/` paths: for any path,
read-only and create/write opens succeed exactly as for ordinary paths (only
`O_APPEND` is refused). -/
theorem C3_amended_readdir_filters_open_does_not_refuse :
    (∀ (s : Store) (f : SFile) (count : Int) (fis : List FInfo),
        fileReaddir s f count = .ok fis →
        ∀ fi ∈ fis, fi.name ≠ defaultPartPref ∧ fi.name ≠ keepDirFileName) ∧
    (∀ (s : Store) (p : String), s3OpenFile s p 0 =
        .ok (⟨cleanName p, some (aget s (cleanName p)), none⟩, s)) ∧
    (∀ (s : Store) (p : String), s3OpenFile s p (oWRONLY ||| oCREATE) =
        .ok (⟨cleanName p, none, some (newStreamingBuffer (cleanName p) defaultBufferSize)⟩,
          s)) := by
  refine ⟨?_, ?_, ?_⟩
  · intro s f count fis h fi hfi
    have hfin : ∀ objs : List MObj,
        fi ∈ readdirLoop f.key [keepDirFileName, defaultPartPref] count objs [] →
        fi.name ≠ defaultPartPref ∧ fi.name ≠ keepDirFileName := by
      intro objs hmem
      rcases readdirLoop_mem f.key [keepDirFileName, defaultPartPref] count objs [] fi hmem with
        habs | hfree
      · cases habs
      · constructor
        · intro he
          rw [he] at hfree
          exact absurd hfree (by decide)
        · intro he
          rw [he] at hfree
          exact absurd hfree (by decide)
    rw [fileReaddir, readdirModel] at h
    repeat' split at h
    all_goals cases h
    all_goals exact hfin _ hfi
  · intro s p
    rfl
  · intro s p
    rfl

/-- **C4 code bug.**  `RemoveAll` on a directory deletes only its direct
children (the listing is non-recursive): on a store holding `d/f` and
`d/sub/x`, `RemoveAll("d")` returns `nil` yet leaves `d/sub/x` behind, and
`Stat("d/sub/x")` still succeeds afterwards — the claim (and the
`webdav.FileSystem` contract the method implements) requires every
descendant to be gone. -/
theorem C4_removeAll_leaves_nested_descendant :
    s3RemoveAll [("d/f", ⟨[1], 1⟩), ("d/sub/x", ⟨[2], 1⟩)] 5 "d" =
      .ok [("d/sub/x", ⟨[2], 1⟩)] ∧
    statModel [("d/sub/x", ⟨[2], 1⟩)] 5 "d/sub/x" =
      .ok ⟨"x", 1, 1, false, defaultFileMode⟩ := by
  decide

/-- `statDir` (s3/util.go) only ever returns a 4096-byte directory. -/
theorem statDirModel_ok {s : Store} {name : String} {fi : FInfo}
    (h : statDirModel s name = .ok fi) : fi.size = 4096 ∧ fi.isDir = true := by
  simp only [statDirModel] at h
  split at h
  · cases h
    exact ⟨rfl, rfl⟩
  · cases h

/-- **C8 counterexample.**  The root directory's synthetic `FileInfo`
advertises size 4096, not 0. -/
theorem C8_counterexample :
    statModel ([] : Store) 5 "/" = .ok ⟨"/", 4096, 5, true, defaultFileMode⟩ ∧
    FInfo.size ⟨"/", 4096, 5, true, defaultFileMode⟩ ≠ 0 := by
  decide

/-- **C8** (amended).  Every directory `FileInfo` returned by ObjectFS
`stat` — the synthetic root and `statDir` results alike — advertises size
4096 (never 0). -/
theorem C8_amended_dir_size_4096 (s : Store) (now : Nat) (name : String) (fi : FInfo)
    (hok : statModel s now name = .ok fi) (hdir : fi.isDir = true) : fi.size = 4096 := by
  simp only [statModel] at hok
  split at hok
  · cases hok
    rfl
  · split at hok
    · cases hok
      simp at hdir
    · exact (statDirModel_ok hok).1

/-- Witness for the amended C8 at a concrete input. -/
theorem C8_amended_dir_size_4096_witness :
    statModel [("d/x", ⟨[1], 3⟩)] 0 "d" =
      .ok ⟨"d", 4096, 3, true, modeDir ||| defaultFileMode⟩ ∧
    FInfo.size ⟨"d", 4096, 3, true, modeDir ||| defaultFileMode⟩ = 4096 := by
  refine ⟨by decide, ?_⟩
  exact C8_amended_dir_size_4096 [("d/x", ⟨[1], 3⟩)] 0 "d" _ (by decide) (by decide)

/-- **C10** (confirmed).  Any flag containing `O_WRONLY`, `O_RDWR`,
`O_CREATE` or `O_TRUNC` produces a write handle with no read object, so
`Read` and `Seek` on it fail with `os.ErrClosed` even before `Close`. -/
theorem C10_write_handles_have_no_read_stream (s : Store) (key : String) (flag : Nat)
    (h : flag &&& (oWRONLY ||| oRDWR ||| oCREATE ||| oTRUNC) ≠ 0) :
    NewFile s key flag = .ok ⟨key, none, some (newStreamingBuffer key defaultBufferSize)⟩ ∧
    fileRead ⟨key, none, some (newStreamingBuffer key defaultBufferSize)⟩ = .error .closed ∧
    ∀ offset : Int,
      fileSeek ⟨key, none, some (newStreamingBuffer key defaultBufferSize)⟩ offset =
        .error .closed := by
  refine ⟨?_, rfl, fun _ => rfl⟩
  rw [NewFile, if_pos h]

/-- Witness for C10: an `O_RDWR` handle on an existing object can never be
read from. -/
theorem C10_write_handles_have_no_read_stream_witness :
    NewFile [("f", ⟨[9], 1⟩)] "f" oRDWR =
      .ok ⟨"f", none, some (newStreamingBuffer "f" defaultBufferSize)⟩ ∧
    fileRead ⟨"f", none, some (newStreamingBuffer "f" defaultBufferSize)⟩ = .error .closed ∧
    fileSeek ⟨"f", none, some (newStreamingBuffer "f" defaultBufferSize)⟩ 0 = .error .closed := by
  have h := C10_write_handles_have_no_read_stream [("f", ⟨[9], 1⟩)] "f" oRDWR (by decide)
  exact ⟨h.1, h.2.1, h.2.2 0⟩

/-! ### CappedFS size accounting (`pkg/webdav/filesystem/capped/filesystem.go`)

The decorator's in-memory index `files : map[string]*fileInfo` and running
`curSize` are embedded as an association list plus an `Int`.  The wrapped
filesystem is abstracted away: each tracking update takes the result of the
underlying call (the stat outcome, the rename kind, …) as a parameter.
`sync` primitives are irrelevant in the sequential embedding.  Go's
`range` over a map visits entries in unspecified order; the embeddings
iterate in index order and the theorems' freshness hypotheses are exactly
the conditions under which every visiting order yields this result. -/

/-- `fileInfo` (capped/filesystem.go). -/
structure CEntry where
  size : Int
  lastAccess : Nat
  path : String
  isDir : Bool
  deriving DecidableEq

/-- The decorator's mutable state: the tracking index and `curSize`. -/
structure CState where
  files : List (String × CEntry)
  curSize : Int
  deriving DecidableEq

/-- The fields of an underlying `os.FileInfo` the decorator reads. -/
structure SInfo where
  size : Int
  isDir : Bool
  deriving DecidableEq

/-- Contribution of one tracked entry to `curSize` (directories never
count). -/
def contribE (e : CEntry) : Int := if e.isDir then 0 else e.size

/-- Sum of `size` over the tracked non-directory entries. -/
def sumSizes (files : List (String × CEntry)) : Int :=
  (files.map fun kv => contribE kv.2).sum

/-- `FileSystem.Mkdir` tracking: `f.files[name] = &fileInfo{size: 0, ...,
isDir: true}`. -/
def mkdirTrack (st : CState) (name : String) (now : Nat) : CState :=
  { st with files := aput st.files name ⟨0, now, name, true⟩ }

/-- `FileSystem.Stat` tracking (capped/filesystem.go): refresh `lastAccess`;
for an already-tracked entry adjust the size difference when the underlying
info is a file; otherwise insert fresh (directories with size 0). -/
def statTrack (st : CState) (name : String) (info : SInfo) (now : Nat) : CState :=
  match aget st.files name with
  | some fi =>
      if info.isDir then
        { st with files := aput st.files name { fi with lastAccess := now } }
      else
        if fi.size ≠ info.size then
          { files := aput st.files name { fi with lastAccess := now, size := info.size },
            curSize := st.curSize - fi.size + info.size }
        else { st with files := aput st.files name { fi with lastAccess := now } }
  | none =>
      { files := aput st.files name
          ⟨if info.isDir then 0 else info.size, now, name, info.isDir⟩,
        curSize := if info.isDir then st.curSize else st.curSize + info.size }

/-- The removal predicate of `FileSystem.RemoveAll`'s directory branch:
`path == name || (len(path) > len(prefix) && path[:len(prefix)] == prefix)`. -/
def removeMatch (name pre : String) (kv : String × CEntry) : Prop :=
  kv.1 = name ∨ (pre.length < kv.1.length ∧ pre.data.isPrefixOf kv.1.data)

instance (name pre : String) (kv : String × CEntry) : Decidable (removeMatch name pre kv) := by
  rw [removeMatch]
  infer_instance

/-- The directory-prefix computation shared by `RemoveAll` and `Rename`:
`if !os.IsPathSeparator(prefix[len(prefix)-1]) { prefix += "/" }`; the index
into an empty string panics (`none`). -/
def dirPreOf (s : String) : Option String :=
  match s.data.getLast? with
  | none => none
  | some c => some (if c = '/' then s else s ++ "/")

/-- `FileSystem.RemoveAll` tracking.  `statRes = none` is the `os.IsNotExist`
path: the Go code then calls `info.IsDir()` on a nil interface and panics —
modelled as `none`.  An empty name panics on `prefix[len(prefix)-1]`,
likewise `none`. -/
def removeAllTrack (st : CState) (name : String) (statRes : Option SInfo) :
    Option CState :=
  match statRes with
  | none => none
  | some info =>
      if info.isDir then
        match dirPreOf name with
        | none => none
        | some pre =>
            some { files := st.files.filter fun kv => decide (¬ removeMatch name pre kv)
                   curSize := st.curSize -
                     sumSizes (st.files.filter fun kv => decide (removeMatch name pre kv)) }
      else
        match aget st.files name with
        | some fi =>
            some { files := aremove st.files name
                   curSize := if fi.isDir then st.curSize else st.curSize - fi.size }
        | none => some st

/-- The retarget of one tracked path under `FileSystem.Rename`'s directory
branch. -/
def renTarget (old new oldPre newPre : String) (k : String) : String :=
  if k = old then new else newPre ++ String.mk (k.data.drop oldPre.length)

/-- One iteration of the directory-rename loop (`for path, fi := range
f.files`): move the directory entry itself (forced `isDir: true`) or a
tracked descendant; the map assignment precedes the delete, as in the
source. -/
def renameStep (old new oldPre newPre : String) (m : List (String × CEntry))
    (kv : String × CEntry) : List (String × CEntry) :=
  if kv.1 = old then
    aremove (aput m new { kv.2 with path := new, isDir := true }) old
  else if oldPre.length < kv.1.length ∧ oldPre.data.isPrefixOf kv.1.data then
    let np := newPre ++ String.mk (kv.1.data.drop oldPre.length)
    aremove (aput m np { kv.2 with path := np }) kv.1
  else m

/-- `FileSystem.Rename` tracking.  The directory branch folds the loop over
a snapshot of the index; empty names panic on `prefix[len(prefix)-1]`
(`none`). -/
def renameTrack (st : CState) (old new : String) (isDir : Bool) : Option CState :=
  if isDir then
    match dirPreOf old, dirPreOf new with
    | some oldPre, some newPre =>
        some { st with files := st.files.foldl (renameStep old new oldPre newPre) st.files }
    | _, _ => none
  else
    match aget st.files old with
    | some fi =>
        let moved := aput st.files new { fi with path := new, isDir := false }
        some { st with files := aremove moved old }
    | none => some st

/-- One entry of `scanDirectory`'s tracking loop. -/
def scanStep (st : CState) (fullPath : String) (size : Int) (isDir : Bool) (now : Nat) :
    CState :=
  if isDir then { st with files := aput st.files fullPath ⟨0, now, fullPath, true⟩ }
  else
    { files := aput st.files fullPath ⟨size, now, fullPath, false⟩
      curSize := st.curSize + size }

/-- `FileSystem.updateFileSize` (runs on handle `Close`). -/
def updateFileSize (st : CState) (path : String) (size : Int) (isDir : Bool) (now : Nat) :
    CState :=
  match aget st.files path with
  | some fi =>
      if fi.isDir then st
      else
        { files := aput st.files path { fi with size := size }
          curSize := st.curSize - fi.size + size }
  | none =>
      { files := aput st.files path ⟨if isDir then 0 else size, now, path, isDir⟩
        curSize := if isDir then st.curSize else st.curSize + size }

/-- The post-removal tracking update of one `ensureSpace` eviction step
(runs after a successful `RemoveAll` on the wrapped filesystem). -/
def ensureSpaceRemoveStep (st : CState) (path : String) : CState :=
  match aget st.files path with
  | some fi =>
      { files := aremove st.files path
        curSize := if fi.isDir then st.curSize else st.curSize - fi.size }
  | none => st

/-- `ensureSpace`'s candidate collection: tracked non-directory entries with
positive size (`!info.isDir && info.size > 0`), in index order. -/
def evictionCandidates (files : List (String × CEntry)) : List CEntry :=
  (files.filter fun kv => decide (kv.2.isDir = false ∧ 0 < kv.2.size)).map Prod.snd

/-- What `sort.Slice(files, func(i, j) { return files[i].lastAccess.Before(
files[j].lastAccess) })` guarantees: some permutation of the input that is
pairwise non-decreasing in `lastAccess`.  `sort.Slice` is *not* stable and
the comparator looks at nothing but `lastAccess`. -/
def CodeSorted (input output : List CEntry) : Prop :=
  input.Perm output ∧ output.Sorted (fun a b => a.lastAccess ≤ b.lastAccess)

/-! ### Claim theorems: C6 -/

/-- Byte-wise lexicographic comparison of paths (the deterministic
tie-break order the spec claims for equal `lastAccess`). -/
def pathLeB : List Char → List Char → Bool
  | [], _ => true
  | _ :: _, [] => false
  | a :: as, b :: bs =>
      if a.toNat < b.toNat then true
      else if b.toNat < a.toNat then false
      else pathLeB as bs

/-- **C6 counterexample.**  The comparator passed to `sort.Slice` compares
`lastAccess` only and `sort.Slice` is unstable, so ties are *not* broken by
path: with two candidates of equal `lastAccess` and paths `"b"`, `"a"` (in
that index order), the identity permutation is a valid sort result, yet it
is not sorted by the claimed (lastAccess, path) lexicographic order. -/
theorem C6_counterexample :
    CodeSorted (evictionCandidates [("b", ⟨1, 1, "b", false⟩), ("a", ⟨1, 1, "a", false⟩)])
      [⟨1, 1, "b", false⟩, ⟨1, 1, "a", false⟩] ∧
    ¬ List.Sorted (fun a b : CEntry => a.lastAccess < b.lastAccess ∨
        (a.lastAccess = b.lastAccess ∧ pathLeB a.path.data b.path.data = true))
      [⟨1, 1, "b", false⟩, ⟨1, 1, "a", false⟩] := by
  constructor
  · exact ⟨by decide, by decide⟩
  · decide

/-- **C6** (amended).  The eviction candidates (tracked non-directory
entries of positive size) are processed in an order that is non-decreasing
in `lastAccess` (tie order unspecified): in every list `sort.Slice` may
produce, each position is at least as recent as every earlier one, and any
candidate strictly older than the entry at position `j` occurs at a
position before `j` — so a file is considered for eviction only after every
strictly older candidate, and the most recently accessed file is never
evicted before a strictly older one. -/
theorem C6_amended_eviction_order (files : List (String × CEntry)) (out : List CEntry)
    (h : CodeSorted (evictionCandidates files) out) :
    (∀ i j, (hi : i < out.length) → (hj : j < out.length) → i ≤ j →
      (out.get ⟨i, hi⟩).lastAccess ≤ (out.get ⟨j, hj⟩).lastAccess) ∧
    (∀ e ∈ evictionCandidates files, ∀ j, (hj : j < out.length) →
      e.lastAccess < (out.get ⟨j, hj⟩).lastAccess →
      ∃ i, ∃ hi : i < out.length, i < j ∧ out.get ⟨i, hi⟩ = e) := by
  obtain ⟨hperm, hsort⟩ := h
  constructor
  · intro i j hi hj hij
    rcases Nat.eq_or_lt_of_le hij with heq | hlt
    · subst heq
      exact Nat.le_refl _
    · exact hsort.rel_get_of_lt hlt
  · intro e he j hj hlt
    have hmem : e ∈ out := hperm.mem_iff.mp he
    obtain ⟨⟨i, hi⟩, hie⟩ := List.mem_iff_get.mp hmem
    refine ⟨i, hi, ?_, hie⟩
    by_contra hge
    push_neg at hge
    have hle : (out.get ⟨j, hj⟩).lastAccess ≤ (out.get ⟨i, hi⟩).lastAccess := by
      rcases Nat.eq_or_lt_of_le hge with heq | hlt2
      · subst heq
        exact Nat.le_refl _
      · exact hsort.rel_get_of_lt hlt2
    rw [hie] at hle
    omega

/-- Witness for the amended C6 at a concrete input. -/
theorem C6_amended_eviction_order_witness :
    CodeSorted (evictionCandidates [("a", ⟨2, 5, "a", false⟩)]) [⟨2, 5, "a", false⟩] ∧
    CEntry.lastAccess ⟨2, 5, "a", false⟩ ≤ CEntry.lastAccess ⟨2, 5, "a", false⟩ := by
  refine ⟨⟨by decide, by decide⟩, ?_⟩
  have h := C6_amended_eviction_order [("a", ⟨2, 5, "a", false⟩)] [⟨2, 5, "a", false⟩]
    ⟨by decide, by decide⟩
  exact h.1 0 0 (by decide) (by decide) (by decide)

/-! ### Association-map arithmetic for the size invariant (claim C5) -/

theorem aget_none_iff {β : Type} (m : List (String × β)) (k : String) :
    aget m k = none ↔ ∀ kv ∈ m, k ≠ kv.1 := by
  induction m with
  | nil => simp [aget]
  | cons hd tl ih =>
      rw [aget]
      by_cases h : k = hd.1
      · simp [h]
      · simp [h, ih]

theorem mem_of_aget {β : Type} {m : List (String × β)} {k : String} {v : β}
    (h : aget m k = some v) : (k, v) ∈ m := by
  induction m with
  | nil => cases h
  | cons hd tl ih =>
      rw [aget] at h
      by_cases hk : k = hd.1
      · rw [if_pos hk] at h
        cases h
        rw [hk]
        exact List.mem_cons_self hd tl
      · rw [if_neg hk] at h
        exact List.mem_cons_of_mem _ (ih h)

theorem nodup_cons_split {β : Type} {hd : String × β} {tl : List (String × β)}
    (hnd : ((hd :: tl).map Prod.fst).Nodup) :
    hd.1 ∉ tl.map Prod.fst ∧ (tl.map Prod.fst).Nodup := by
  rw [List.map_cons, List.nodup_cons] at hnd
  exact hnd

theorem aget_mem_akeys {β : Type} {m : List (String × β)} {k : String} {v : β}
    (h : aget m k = some v) : k ∈ m.map Prod.fst :=
  List.mem_map.mpr ⟨(k, v), mem_of_aget h, rfl⟩

theorem aget_of_mem_nodup {β : Type} {m : List (String × β)}
    (hnd : (m.map Prod.fst).Nodup) {kv : String × β} (hmem : kv ∈ m) :
    aget m kv.1 = some kv.2 := by
  induction m with
  | nil => cases hmem
  | cons hd tl ih =>
      have hnd' := nodup_cons_split hnd
      rcases List.mem_cons.mp hmem with he | htl
      · subst he
        rw [aget, if_pos rfl]
      · rw [aget]
        have hne : kv.1 ≠ hd.1 := by
          intro hcol
          exact hnd'.1 (hcol ▸ List.mem_map.mpr ⟨kv, htl, rfl⟩)
        rw [if_neg hne]
        exact ih hnd'.2 htl

theorem aremove_eq_self {β : Type} (m : List (String × β)) (k : String)
    (h : aget m k = none) : aremove m k = m := by
  induction m with
  | nil => rfl
  | cons hd tl ih =>
      rw [aget] at h
      by_cases hk : k = hd.1
      · rw [if_pos hk] at h
        cases h
      · rw [if_neg hk] at h
        rw [aremove, if_neg (fun hc => hk hc.symm), ih h]

theorem sumSizes_aput_fresh (m : List (String × CEntry)) (k : String) (v : CEntry)
    (h : aget m k = none) : sumSizes (aput m k v) = sumSizes m + contribE v := by
  induction m with
  | nil => simp [aput, sumSizes]
  | cons hd tl ih =>
      rw [aget] at h
      by_cases hk : k = hd.1
      · rw [if_pos hk] at h
        cases h
      · rw [if_neg hk] at h
        rw [aput, if_neg hk]
        simp only [sumSizes, List.map_cons, List.sum_cons] at ih ⊢
        rw [ih h]
        ring

theorem sumSizes_aput_present (m : List (String × CEntry)) (k : String) (v e : CEntry)
    (hget : aget m k = some e) :
    sumSizes (aput m k v) = sumSizes m - contribE e + contribE v := by
  induction m with
  | nil => cases hget
  | cons hd tl ih =>
      rw [aget] at hget
      by_cases hk : k = hd.1
      · rw [if_pos hk] at hget
        cases hget
        rw [aput, if_pos hk]
        simp only [sumSizes, List.map_cons, List.sum_cons]
        ring
      · rw [if_neg hk] at hget
        rw [aput, if_neg hk]
        simp only [sumSizes, List.map_cons, List.sum_cons] at ih ⊢
        rw [ih hget]
        ring

theorem sumSizes_aremove (m : List (String × CEntry)) (k : String) (e : CEntry)
    (hnd : (m.map Prod.fst).Nodup) (hget : aget m k = some e) :
    sumSizes (aremove m k) = sumSizes m - contribE e := by
  induction m with
  | nil => cases hget
  | cons hd tl ih =>
      have hnd' := nodup_cons_split hnd
      rw [aget] at hget
      by_cases hk : k = hd.1
      · rw [if_pos hk] at hget
        cases hget
        rw [aremove, if_pos hk.symm]
        have htl : aget tl k = none := by
          rw [aget_none_iff]
          intro kv hkv hcol
          exact hnd'.1 (by
            rw [hk] at hcol
            exact hcol ▸ List.mem_map.mpr ⟨kv, hkv, rfl⟩)
        rw [aremove_eq_self tl k htl]
        simp only [sumSizes, List.map_cons, List.sum_cons]
        ring
      · rw [if_neg hk] at hget
        rw [aremove, if_neg (fun hc => hk hc.symm)]
        simp only [sumSizes, List.map_cons, List.sum_cons] at ih ⊢
        rw [ih hnd'.2 hget]
        ring

theorem mem_akeys_aput {β : Type} (m : List (String × β)) (k : String) (v : β) (a : String) :
    a ∈ (aput m k v).map Prod.fst ↔ a ∈ m.map Prod.fst ∨ a = k := by
  induction m with
  | nil => simp [aput]
  | cons hd tl ih =>
      by_cases hk : k = hd.1
      · rw [aput, if_pos hk]
        subst hk
        simp
        tauto
      · rw [aput, if_neg hk]
        simp only [List.map_cons, List.mem_cons] at ih ⊢
        rw [ih]
        tauto

theorem nodup_aput {β : Type} (m : List (String × β)) (k : String) (v : β)
    (hnd : (m.map Prod.fst).Nodup) : ((aput m k v).map Prod.fst).Nodup := by
  induction m with
  | nil => simp [aput]
  | cons hd tl ih =>
      have hnd' := nodup_cons_split hnd
      by_cases hk : k = hd.1
      · rw [aput, if_pos hk]
        subst hk
        simpa using hnd
      · rw [aput, if_neg hk]
        simp only [List.map_cons, List.nodup_cons]
        refine ⟨?_, ih hnd'.2⟩
        intro hmem
        rcases (mem_akeys_aput tl k v hd.1).mp hmem with hm | he
        · exact hnd'.1 hm
        · exact hk he.symm

theorem mem_akeys_aremove {β : Type} (m : List (String × β)) (k : String) (a : String)
    (h : a ∈ (aremove m k).map Prod.fst) : a ∈ m.map Prod.fst := by
  induction m with
  | nil => simp [aremove] at h
  | cons hd tl ih =>
      rw [aremove] at h
      by_cases hk : hd.1 = k
      · rw [if_pos hk] at h
        exact List.mem_cons_of_mem _ (ih h)
      · rw [if_neg hk] at h
        simp only [List.map_cons, List.mem_cons] at h ⊢
        rcases h with he | hm
        · exact Or.inl he
        · exact Or.inr (ih hm)

theorem nodup_aremove {β : Type} (m : List (String × β)) (k : String)
    (hnd : (m.map Prod.fst).Nodup) : ((aremove m k).map Prod.fst).Nodup := by
  induction m with
  | nil => simp [aremove]
  | cons hd tl ih =>
      have hnd' := nodup_cons_split hnd
      rw [aremove]
      by_cases hk : hd.1 = k
      · rw [if_pos hk]
        exact ih hnd'.2
      · rw [if_neg hk]
        simp only [List.map_cons, List.nodup_cons]
        exact ⟨fun hm => hnd'.1 (mem_akeys_aremove tl k hd.1 hm), ih hnd'.2⟩

theorem mem_aput {β : Type} {m : List (String × β)} {k : String} {v : β}
    {kv : String × β} (h : kv ∈ aput m k v) : kv = (k, v) ∨ kv ∈ m := by
  induction m with
  | nil => simpa [aput] using h
  | cons hd tl ih =>
      rw [aput] at h
      by_cases hk : k = hd.1
      · rw [if_pos hk] at h
        rcases List.mem_cons.mp h with he | hm
        · exact Or.inl he
        · exact Or.inr (List.mem_cons_of_mem _ hm)
      · rw [if_neg hk] at h
        rcases List.mem_cons.mp h with he | hm
        · exact Or.inr (he ▸ List.mem_cons_self hd tl)
        · rcases ih hm with he' | hm'
          · exact Or.inl he'
          · exact Or.inr (List.mem_cons_of_mem _ hm')

theorem mem_aremove {β : Type} {m : List (String × β)} {k : String}
    {kv : String × β} (h : kv ∈ aremove m k) : kv ∈ m := by
  induction m with
  | nil => simp [aremove] at h
  | cons hd tl ih =>
      rw [aremove] at h
      by_cases hk : hd.1 = k
      · rw [if_pos hk] at h
        exact List.mem_cons_of_mem _ (ih h)
      · rw [if_neg hk] at h
        rcases List.mem_cons.mp h with he | hm
        · exact he ▸ List.mem_cons_self hd tl
        · exact List.mem_cons_of_mem _ (ih hm)

theorem sumSizes_cons (hd : String × CEntry) (tl : List (String × CEntry)) :
    sumSizes (hd :: tl) = contribE hd.2 + sumSizes tl := by
  simp [sumSizes]

theorem sumSizes_filter_split (m : List (String × CEntry)) (p : String × CEntry → Bool) :
    sumSizes m = sumSizes (m.filter p) + sumSizes (m.filter fun kv => !(p kv)) := by
  induction m with
  | nil => simp [sumSizes]
  | cons hd tl ih =>
      by_cases hp : p hd = true
      · have h1 : (hd :: tl).filter p = hd :: tl.filter p := by
          rw [List.filter_cons, if_pos hp]
        have h2 : (hd :: tl).filter (fun kv => !(p kv)) = tl.filter (fun kv => !(p kv)) := by
          rw [List.filter_cons]
          rw [hp]
          simp
        rw [sumSizes_cons, h1, h2, sumSizes_cons, ih]
        ring
      · have hp' : p hd = false := Bool.eq_false_iff.mpr hp
        have h1 : (hd :: tl).filter p = tl.filter p := by
          rw [List.filter_cons, hp']
          simp
        have h2 : (hd :: tl).filter (fun kv => !(p kv)) = hd :: tl.filter (fun kv => !(p kv)) := by
          rw [List.filter_cons]
          rw [hp']
          simp
        rw [sumSizes_cons, h1, h2, sumSizes_cons, ih]
        ring

/-- The CappedFS tracking invariant: distinct tracked paths, `curSize` equal
to the sum of `size` over tracked non-directory entries, directories tracked
with size 0. -/
def TrackOK (st : CState) : Prop :=
  (st.files.map Prod.fst).Nodup ∧
  st.curSize = sumSizes st.files ∧
  ∀ kv ∈ st.files, kv.2.isDir = true → kv.2.size = 0

theorem mkdirTrack_ok (st : CState) (name : String) (now : Nat) (h : TrackOK st)
    (hdir : ∀ e, aget st.files name = some e → e.isDir = true) :
    TrackOK (mkdirTrack st name now) := by
  obtain ⟨hnd, hsum, hdirs⟩ := h
  refine ⟨nodup_aput _ _ _ hnd, ?_, ?_⟩
  · show st.curSize = sumSizes (aput st.files name ⟨0, now, name, true⟩)
    cases hget : aget st.files name with
    | none =>
        rw [sumSizes_aput_fresh _ _ _ hget]
        simp [contribE, hsum]
    | some e =>
        rw [sumSizes_aput_present _ _ _ _ hget]
        have he := hdir e hget
        have hz : e.size = 0 := hdirs (name, e) (mem_of_aget hget) he
        simp [contribE, he, hz, hsum]
  · intro kv hkv hkd
    rcases mem_aput hkv with he | hm
    · simp [he]
    · exact hdirs kv hm hkd

theorem statTrack_ok (st : CState) (name : String) (info : SInfo) (now : Nat)
    (h : TrackOK st)
    (hkind : ∀ e, aget st.files name = some e → e.isDir = info.isDir) :
    TrackOK (statTrack st name info now) := by
  obtain ⟨hnd, hsum, hdirs⟩ := h
  cases hget : aget st.files name with
  | none =>
      simp only [statTrack, hget]
      refine ⟨nodup_aput _ _ _ hnd, ?_, ?_⟩
      · show (if info.isDir then st.curSize else st.curSize + info.size) = _
        rw [sumSizes_aput_fresh _ _ _ hget]
        by_cases hd : info.isDir
        · simp [hd, contribE, hsum]
        · simp [hd, contribE, hsum]
      · intro kv hkv hkd
        rcases mem_aput hkv with he | hm
        · subst he
          simp only at hkd ⊢
          rw [hkd]
          simp
        · exact hdirs kv hm hkd
  | some fi =>
      simp only [statTrack, hget]
      have hfid : fi.isDir = info.isDir := hkind fi hget
      have hmem := mem_of_aget hget
      by_cases hd : info.isDir
      · rw [if_pos hd]
        refine ⟨nodup_aput _ _ _ hnd, ?_, ?_⟩
        · show st.curSize = _
          rw [sumSizes_aput_present _ _ _ _ hget]
          simp [contribE, hsum]
        · intro kv hkv hkd
          rcases mem_aput hkv with he | hm
          · subst he
            simp only at hkd ⊢
            exact hdirs (name, fi) hmem hkd
          · exact hdirs kv hm hkd
      · rw [if_neg hd]
        have hfif : fi.isDir = false := by
          rw [hfid]
          exact Bool.eq_false_iff.mpr hd
        by_cases hsz : fi.size ≠ info.size
        · rw [if_pos hsz]
          refine ⟨nodup_aput _ _ _ hnd, ?_, ?_⟩
          · show st.curSize - fi.size + info.size = _
            rw [sumSizes_aput_present _ _ _ _ hget]
            simp [contribE, hfif, hsum]
          · intro kv hkv hkd
            rcases mem_aput hkv with he | hm
            · subst he
              simp only at hkd
              rw [hfif] at hkd
              cases hkd
            · exact hdirs kv hm hkd
        · rw [if_neg hsz]
          refine ⟨nodup_aput _ _ _ hnd, ?_, ?_⟩
          · show st.curSize = _
            rw [sumSizes_aput_present _ _ _ _ hget]
            simp [contribE, hsum]
          · intro kv hkv hkd
            rcases mem_aput hkv with he | hm
            · subst he
              simp only at hkd
              rw [hfif] at hkd
              cases hkd
            · exact hdirs kv hm hkd

theorem removeAllTrack_ok (st : CState) (name : String) (statRes : Option SInfo)
    (st' : CState) (h : TrackOK st) (hres : removeAllTrack st name statRes = some st') :
    TrackOK st' := by
  obtain ⟨hnd, hsum, hdirs⟩ := h
  cases statRes with
  | none => cases hres
  | some info =>
      simp only [removeAllTrack] at hres
      by_cases hd : info.isDir
      · rw [if_pos hd] at hres
        cases hpre : dirPreOf name with
        | none =>
            rw [hpre] at hres
            cases hres
        | some pre =>
            rw [hpre] at hres
            cases hres
            refine ⟨?_, ?_, ?_⟩
            · exact List.Nodup.sublist
                ((List.filter_sublist _).map Prod.fst) hnd
            · show st.curSize - _ = _
              rw [hsum,
                sumSizes_filter_split st.files fun kv => decide (removeMatch name pre kv)]
              have hnot : (st.files.filter fun kv => !(decide (removeMatch name pre kv))) =
                  (st.files.filter fun kv => decide (¬ removeMatch name pre kv)) := by
                simp
              rw [hnot]
              ring
            · intro kv hkv hkd
              exact hdirs kv (List.mem_of_mem_filter hkv) hkd
      · rw [if_neg hd] at hres
        cases hget : aget st.files name with
        | none =>
            rw [hget] at hres
            cases hres
            exact ⟨hnd, hsum, hdirs⟩
        | some fi =>
            rw [hget] at hres
            cases hres
            refine ⟨nodup_aremove _ _ hnd, ?_, ?_⟩
            · show (if fi.isDir then st.curSize else st.curSize - fi.size) = _
              rw [sumSizes_aremove _ _ _ hnd hget]
              by_cases hfd : fi.isDir
              · have hz : fi.size = 0 := hdirs (name, fi) (mem_of_aget hget) hfd
                simp [hfd, contribE, hz, hsum]
              · simp [hfd, contribE, hsum]
            · intro kv hkv hkd
              exact hdirs kv (mem_aremove hkv) hkd

theorem renameTrack_file_ok (st : CState) (old new : String) (st' : CState)
    (h : TrackOK st) (hfresh : aget st.files new = none)
    (hres : renameTrack st old new false = some st') : TrackOK st' := by
  obtain ⟨hnd, hsum, hdirs⟩ := h
  cases hget : aget st.files old with
  | none =>
      simp only [renameTrack, Bool.false_eq_true, if_false, hget] at hres
      cases hres
      exact ⟨hnd, hsum, hdirs⟩
  | some fi =>
      simp only [renameTrack, Bool.false_eq_true, if_false, hget] at hres
      cases hres
      have hone : old ≠ new := by
        intro he
        rw [he, hfresh] at hget
        cases hget
      have hget2 : aget (aput st.files new { fi with path := new, isDir := false }) old =
          some fi := by
        rw [aget_aput_ne _ _ _ _ hone]
        exact hget
      refine ⟨nodup_aremove _ _ (nodup_aput _ _ _ hnd), ?_, ?_⟩
      · show st.curSize = _
        rw [sumSizes_aremove _ _ _ (nodup_aput _ _ _ hnd) hget2,
          sumSizes_aput_fresh _ _ _ hfresh]
        by_cases hfd : fi.isDir
        · have hz : fi.size = 0 := hdirs (old, fi) (mem_of_aget hget) hfd
          simp [contribE, hfd, hz, hsum]
        · have hfd' : fi.isDir = false := Bool.eq_false_iff.mpr hfd
          simp [contribE, hfd', hsum]
      · intro kv hkv hkd
        rcases mem_aput (mem_aremove hkv) with he | hm
        · subst he
          simp only at hkd
          cases hkd
        · exact hdirs kv hm hkd

theorem scanStep_ok (st : CState) (fullPath : String) (size : Int) (isDir : Bool)
    (now : Nat) (h : TrackOK st) (hfresh : aget st.files fullPath = none) :
    TrackOK (scanStep st fullPath size isDir now) := by
  obtain ⟨hnd, hsum, hdirs⟩ := h
  rw [scanStep]
  by_cases hd : isDir
  · rw [if_pos hd]
    refine ⟨nodup_aput _ _ _ hnd, ?_, ?_⟩
    · show st.curSize = _
      rw [sumSizes_aput_fresh _ _ _ hfresh]
      simp [contribE, hsum]
    · intro kv hkv hkd
      rcases mem_aput hkv with he | hm
      · simp [he]
      · exact hdirs kv hm hkd
  · rw [if_neg hd]
    refine ⟨nodup_aput _ _ _ hnd, ?_, ?_⟩
    · show st.curSize + size = _
      rw [sumSizes_aput_fresh _ _ _ hfresh]
      simp [contribE, hsum]
    · intro kv hkv hkd
      rcases mem_aput hkv with he | hm
      · subst he
        simp only at hkd
        cases hkd
      · exact hdirs kv hm hkd

theorem updateFileSize_ok (st : CState) (path : String) (size : Int) (isDir : Bool)
    (now : Nat) (h : TrackOK st) : TrackOK (updateFileSize st path size isDir now) := by
  obtain ⟨hnd, hsum, hdirs⟩ := h
  cases hget : aget st.files path with
  | none =>
      simp only [updateFileSize, hget]
      refine ⟨nodup_aput _ _ _ hnd, ?_, ?_⟩
      · show (if isDir then st.curSize else st.curSize + size) = _
        rw [sumSizes_aput_fresh _ _ _ hget]
        by_cases hd : isDir
        · simp [hd, contribE, hsum]
        · simp [hd, contribE, hsum]
      · intro kv hkv hkd
        rcases mem_aput hkv with he | hm
        · subst he
          simp only at hkd ⊢
          rw [hkd]
          simp
        · exact hdirs kv hm hkd
  | some fi =>
      simp only [updateFileSize, hget]
      by_cases hfd : fi.isDir
      · rw [if_pos hfd]
        exact ⟨hnd, hsum, hdirs⟩
      · rw [if_neg hfd]
        have hfd' : fi.isDir = false := Bool.eq_false_iff.mpr hfd
        refine ⟨nodup_aput _ _ _ hnd, ?_, ?_⟩
        · show st.curSize - fi.size + size = _
          rw [sumSizes_aput_present _ _ _ _ hget]
          simp [contribE, hfd', hsum]
        · intro kv hkv hkd
          rcases mem_aput hkv with he | hm
          · subst he
            simp only at hkd
            rw [hfd'] at hkd
            cases hkd
          · exact hdirs kv hm hkd

theorem ensureSpaceRemoveStep_ok (st : CState) (path : String) (h : TrackOK st) :
    TrackOK (ensureSpaceRemoveStep st path) := by
  obtain ⟨hnd, hsum, hdirs⟩ := h
  cases hget : aget st.files path with
  | none =>
      simp only [ensureSpaceRemoveStep, hget]
      exact ⟨hnd, hsum, hdirs⟩
  | some fi =>
      simp only [ensureSpaceRemoveStep, hget]
      refine ⟨nodup_aremove _ _ hnd, ?_, ?_⟩
      · show (if fi.isDir then st.curSize else st.curSize - fi.size) = _
        rw [sumSizes_aremove _ _ _ hnd hget]
        by_cases hfd : fi.isDir
        · have hz : fi.size = 0 := hdirs (path, fi) (mem_of_aget hget) hfd
          simp [hfd, contribE, hz, hsum]
        · simp [hfd, contribE, hsum]
      · intro kv hkv hkd
        exact hdirs kv (mem_aremove hkv) hkd

/-! ### Directory rename: the snapshot fold (claim C5) -/

/-- A tracked path affected by the directory-rename loop. -/
def RenAffected (old oldPre : String) (k : String) : Prop :=
  k = old ∨ (oldPre.length < k.length ∧ oldPre.data.isPrefixOf k.data)

theorem dirPreOf_length {s pre : String} (h : dirPreOf s = some pre) :
    s.length ≤ pre.length := by
  rw [dirPreOf] at h
  cases hg : s.data.getLast? with
  | none =>
      rw [hg] at h
      cases h
  | some c =>
      rw [hg] at h
      cases h
      by_cases hc : c = '/'
      · rw [if_pos hc]
      · rw [if_neg hc]
        show s.length ≤ (s ++ "/").length
        rw [string_length_eq, string_length_eq, string_data_append, List.length_append]
        omega

theorem renTarget_under_len (new oldPre newPre : String)
    (hlen : new.length ≤ newPre.length) {k : String} (hlt : oldPre.length < k.length) :
    new.length < (newPre ++ String.mk (k.data.drop oldPre.length)).length := by
  show new.data.length < (newPre.data ++ k.data.drop oldPre.length).length
  rw [List.length_append, List.length_drop,
    show (oldPre.length : Nat) = oldPre.data.length from rfl]
  have h1 : oldPre.data.length < k.data.length := hlt
  have h2 : new.data.length ≤ newPre.data.length := hlen
  omega

theorem renTarget_inj (old new oldPre newPre : String) (hlen : new.length ≤ newPre.length)
    {k k' : String} (hk : RenAffected old oldPre k) (hk' : RenAffected old oldPre k')
    (hne : k ≠ k') :
    renTarget old new oldPre newPre k ≠ renTarget old new oldPre newPre k' := by
  rw [renTarget, renTarget]
  by_cases h1 : k = old
  · rw [if_pos h1]
    have h2 : ¬ k' = old := fun he => hne (h1.trans he.symm)
    rw [if_neg h2]
    rcases hk' with he | ⟨hlt, _⟩
    · exact absurd he h2
    · intro hcol
      have hlt2 := renTarget_under_len new oldPre newPre hlen hlt
      rw [← hcol] at hlt2
      exact absurd hlt2 (lt_irrefl _)
  · rw [if_neg h1]
    by_cases h2 : k' = old
    · rw [if_pos h2]
      rcases hk with he | ⟨hlt, _⟩
      · exact absurd he h1
      · intro hcol
        have hlt2 := renTarget_under_len new oldPre newPre hlen hlt
        rw [hcol] at hlt2
        exact absurd hlt2 (lt_irrefl _)
    · rw [if_neg h2]
      rcases hk with he | ⟨hlt, hpre⟩
      · exact absurd he h1
      rcases hk' with he' | ⟨hlt', hpre'⟩
      · exact absurd he' h2
      intro hcol
      have hdata := congrArg String.data hcol
      rw [string_data_append, string_data_append] at hdata
      have hdrop : k.data.drop oldPre.length = k'.data.drop oldPre.length :=
        List.append_cancel_left hdata
      obtain ⟨t1, ht1⟩ := List.isPrefixOf_iff_prefix.mp hpre
      obtain ⟨t2, ht2⟩ := List.isPrefixOf_iff_prefix.mp hpre'
      rw [← ht1, ← ht2] at hdrop
      rw [show (oldPre.length : Nat) = oldPre.data.length from rfl] at hdrop
      rw [List.drop_left, List.drop_left] at hdrop
      refine hne (string_data_inj ?_)
      rw [← ht1, ← ht2, hdrop]

/-- Moving one tracked entry to a fresh key with the same `curSize`
contribution preserves the accounting. -/
theorem moveEntry_ok (m : List (String × CEntry)) (k t : String) (e eNew : CEntry)
    (hnd : (m.map Prod.fst).Nodup)
    (hdirs : ∀ kv ∈ m, kv.2.isDir = true → kv.2.size = 0)
    (hget : aget m k = some e) (htfresh : t ∉ m.map Prod.fst)
    (hc : contribE eNew = contribE e)
    (hde : eNew.isDir = true → eNew.size = 0) :
    ((aremove (aput m t eNew) k).map Prod.fst).Nodup ∧
    sumSizes (aremove (aput m t eNew) k) = sumSizes m ∧
    (∀ kv ∈ aremove (aput m t eNew) k, kv.2.isDir = true → kv.2.size = 0) ∧
    (∀ a, a ∈ (aremove (aput m t eNew) k).map Prod.fst → a ∈ m.map Prod.fst ∨ a = t) ∧
    (∀ k', k' ≠ k → k' ≠ t → aget (aremove (aput m t eNew) k) k' = aget m k') := by
  have hkt : k ≠ t := fun he => htfresh (he ▸ aget_mem_akeys hget)
  have htfresh' : aget m t = none := by
    rw [aget_none_iff]
    intro kv hkv he
    exact htfresh (he ▸ List.mem_map.mpr ⟨kv, hkv, rfl⟩)
  have hget2 : aget (aput m t eNew) k = some e := by
    rw [aget_aput_ne _ _ _ _ hkt]
    exact hget
  refine ⟨nodup_aremove _ _ (nodup_aput _ _ _ hnd), ?_, ?_, ?_, ?_⟩
  · rw [sumSizes_aremove _ _ _ (nodup_aput _ _ _ hnd) hget2,
      sumSizes_aput_fresh _ _ _ htfresh', hc]
    ring
  · intro kv hkv hkd
    rcases mem_aput (mem_aremove hkv) with he | hm
    · rw [he] at hkd ⊢
      exact hde hkd
    · exact hdirs kv hm hkd
  · intro a ha
    rcases (mem_akeys_aput m t eNew a).mp (mem_akeys_aremove _ _ _ ha) with hm | he
    · exact Or.inl hm
    · exact Or.inr he
  · intro k' hk1 hk2
    rw [aget_aremove_ne _ _ _ hk1, aget_aput_ne _ _ _ _ hk2]

/-- The directory-rename fold over a snapshot of the index preserves the
accounting, provided the sources are distinct and still present, the
directory entry itself is tracked as a directory, and every retarget lands
on a fresh key. -/
theorem renameFold_ok (old new oldPre newPre : String)
    (hlen : new.length ≤ newPre.length) :
    ∀ (todo m : List (String × CEntry)),
      (m.map Prod.fst).Nodup →
      (∀ kv ∈ m, kv.2.isDir = true → kv.2.size = 0) →
      ((todo.map Prod.fst).Nodup) →
      (∀ kv ∈ todo, aget m kv.1 = some kv.2) →
      (∀ kv ∈ todo, kv.1 = old → kv.2.isDir = true) →
      (∀ kv ∈ todo, RenAffected old oldPre kv.1 →
        renTarget old new oldPre newPre kv.1 ∉ m.map Prod.fst) →
      ((todo.foldl (renameStep old new oldPre newPre) m).map Prod.fst).Nodup ∧
      sumSizes (todo.foldl (renameStep old new oldPre newPre) m) = sumSizes m ∧
      (∀ kv ∈ todo.foldl (renameStep old new oldPre newPre) m,
        kv.2.isDir = true → kv.2.size = 0) := by
  intro todo
  induction todo with
  | nil =>
      intro m hnd hdirs _ _ _ _
      exact ⟨hnd, rfl, hdirs⟩
  | cons kv todo ih =>
      intro m hnd hdirs hndt hget hdro htgt
      have hndt' := nodup_cons_split hndt
      have hgetkv := hget kv (List.mem_cons_self kv todo)
      simp only [List.foldl_cons]
      by_cases haff : RenAffected old oldPre kv.1
      · -- the entry is moved
        have htkv := htgt kv (List.mem_cons_self kv todo) haff
        have hmove : ∃ eNew : CEntry,
            renameStep old new oldPre newPre m kv =
              aremove (aput m (renTarget old new oldPre newPre kv.1) eNew) kv.1 ∧
            contribE eNew = contribE kv.2 ∧ (eNew.isDir = true → eNew.size = 0) := by
          rw [renameStep, renTarget]
          by_cases h1 : kv.1 = old
          · rw [if_pos h1, if_pos h1]
            refine ⟨{ kv.2 with path := new, isDir := true }, ?_, ?_, ?_⟩
            · rw [h1]
            · have hdkv : kv.2.isDir = true := hdro kv (List.mem_cons_self kv todo) h1
              simp [contribE, hdkv]
            · intro _
              exact hdirs (kv.1, kv.2) (mem_of_aget hgetkv) (hdro kv (List.mem_cons_self kv todo) h1)
          · rw [if_neg h1, if_neg h1]
            rcases haff with he | hunder
            · exact absurd he h1
            rw [if_pos hunder]
            refine ⟨{ kv.2 with path := newPre ++ String.mk (kv.1.data.drop oldPre.length) },
              rfl, by simp [contribE], ?_⟩
            intro hd
            exact hdirs (kv.1, kv.2) (mem_of_aget hgetkv) hd
        obtain ⟨eNew, hstep, hcE, hdE⟩ := hmove
        rw [hstep]
        obtain ⟨hnd2, hsum2, hdirs2, hkeys2, hframe2⟩ :=
          moveEntry_ok m kv.1 (renTarget old new oldPre newPre kv.1) kv.2 eNew hnd hdirs
            hgetkv htkv hcE hdE
        have hrec := ih (aremove (aput m (renTarget old new oldPre newPre kv.1) eNew) kv.1)
          hnd2 hdirs2 hndt'.2 ?_ ?_ ?_
        · exact ⟨hrec.1, hrec.2.1.trans hsum2, hrec.2.2⟩
        · -- sources of the tail still present, unchanged
          intro kv' hkv'
          have hne1 : kv'.1 ≠ kv.1 := by
            intro he
            exact hndt'.1 (he ▸ List.mem_map.mpr ⟨kv', hkv', rfl⟩)
          have hne2 : kv'.1 ≠ renTarget old new oldPre newPre kv.1 := by
            intro he
            exact htkv (he ▸ aget_mem_akeys (hget kv' (List.mem_cons_of_mem _ hkv')))
          rw [hframe2 kv'.1 hne1 hne2]
          exact hget kv' (List.mem_cons_of_mem _ hkv')
        · intro kv' hkv' he
          exact hdro kv' (List.mem_cons_of_mem _ hkv') he
        · -- future targets stay fresh
          intro kv' hkv' haff'
          intro hmem
          rcases hkeys2 _ hmem with hm | he
          · exact htgt kv' (List.mem_cons_of_mem _ hkv') haff' hm
          · have hne : kv'.1 ≠ kv.1 := by
              intro hcol
              exact hndt'.1 (hcol ▸ List.mem_map.mpr ⟨kv', hkv', rfl⟩)
            exact renTarget_inj old new oldPre newPre hlen haff' haff hne he
      · -- the entry is untouched
        have hstep : renameStep old new oldPre newPre m kv = m := by
          rw [renameStep]
          have h1 : ¬ kv.1 = old := fun he => haff (Or.inl he)
          have h2 : ¬ (oldPre.length < kv.1.length ∧ oldPre.data.isPrefixOf kv.1.data) :=
            fun hc => haff (Or.inr hc)
          rw [if_neg h1, if_neg h2]
        rw [hstep]
        exact ih m hnd hdirs hndt'.2
          (fun kv' hkv' => hget kv' (List.mem_cons_of_mem _ hkv'))
          (fun kv' hkv' he => hdro kv' (List.mem_cons_of_mem _ hkv') he)
          (fun kv' hkv' ha => htgt kv' (List.mem_cons_of_mem _ hkv') ha)

theorem renameTrack_dir_ok (st : CState) (old new oldPre newPre : String) (st' : CState)
    (h : TrackOK st)
    (hpre1 : dirPreOf old = some oldPre)
    (hpre2 : dirPreOf new = some newPre)
    (hdirold : ∀ e, aget st.files old = some e → e.isDir = true)
    (hfresh : ∀ kv ∈ st.files, kv.1 ≠ new ∧ newPre.data.isPrefixOf kv.1.data = false)
    (hres : renameTrack st old new true = some st') : TrackOK st' := by
  obtain ⟨hnd, hsum, hdirs⟩ := h
  simp only [renameTrack, hpre1, hpre2, if_true] at hres
  cases hres
  have hfold := renameFold_ok old new oldPre newPre (dirPreOf_length hpre2) st.files st.files
    hnd hdirs hnd
    (fun kv hkv => aget_of_mem_nodup hnd hkv)
    (fun kv hkv he => hdirold kv.2 (by
      rw [← he]
      exact aget_of_mem_nodup hnd hkv))
    ?_
  · exact ⟨hfold.1, by
      show st.curSize = _
      rw [hfold.2.1]
      exact hsum, hfold.2.2⟩
  · intro kv hkv haff hmem
    obtain ⟨kv0, hkv0, hkv0e⟩ := List.mem_map.mp hmem
    have hf := hfresh kv0 hkv0
    rw [renTarget] at hkv0e
    by_cases h1 : kv.1 = old
    · rw [if_pos h1] at hkv0e
      exact hf.1 hkv0e
    · rw [if_neg h1] at hkv0e
      have : newPre.data.isPrefixOf kv0.1.data = true := by
        rw [hkv0e]
        rw [List.isPrefixOf_iff_prefix]
        exact ⟨kv.1.data.drop oldPre.length, rfl⟩
      rw [hf.2] at this
      cases this

/-! ### Claim theorems: C5 -/

/-- **C5 counterexample.**  `Rename` of a file onto an already-tracked path
overwrites the destination's index entry without subtracting its size: from
a valid state `{a ↦ 5, b ↦ 3, curSize 8}`, `Rename(a, b)` completes and
leaves `{b ↦ 5, curSize 8}`, where `curSize (8)` no longer equals the sum of
tracked non-directory sizes (5). -/
theorem C5_counterexample :
    TrackOK ⟨[("a", ⟨5, 0, "a", false⟩), ("b", ⟨3, 0, "b", false⟩)], 8⟩ ∧
    renameTrack ⟨[("a", ⟨5, 0, "a", false⟩), ("b", ⟨3, 0, "b", false⟩)], 8⟩ "a" "b" false =
      some ⟨[("b", ⟨5, 0, "b", false⟩)], 8⟩ ∧
    ¬ TrackOK ⟨[("b", ⟨5, 0, "b", false⟩)], 8⟩ := by
  refine ⟨⟨by decide, by decide, by decide⟩, by decide, ?_⟩
  intro h
  exact absurd h.2.1 (by decide)

/-- **C5** (amended).  The size-accounting invariant — `curSize` equals the
sum of `size` over tracked non-directory entries, directories tracked with
size 0, tracked paths distinct — is preserved by every tracking update of
the decorator (`Mkdir`, `Stat`, `RemoveAll`, `Rename`, each scan step,
`updateFileSize` on handle close, each `ensureSpace` removal step),
*provided* no update overwrites a tracked entry of conflicting kind: `Stat`'s
underlying kind matches the tracked kind, scan steps insert fresh paths, and
`Rename` destinations are untracked (for a directory, the renamed entry is
tracked as a directory and no tracked path equals or lies under the new
prefix).  Without the freshness proviso `Rename` breaks the invariant
(`C5_counterexample`); `removeAllTrack`, `updateFileSize` and eviction steps
need no proviso. -/
theorem C5_amended_size_accounting :
    (∀ st name now, TrackOK st → (∀ e, aget st.files name = some e → e.isDir = true) →
        TrackOK (mkdirTrack st name now)) ∧
    (∀ st name info now, TrackOK st →
        (∀ e, aget st.files name = some e → e.isDir = info.isDir) →
        TrackOK (statTrack st name info now)) ∧
    (∀ st name statRes st', TrackOK st → removeAllTrack st name statRes = some st' →
        TrackOK st') ∧
    (∀ st old new st', TrackOK st → aget st.files new = none →
        renameTrack st old new false = some st' → TrackOK st') ∧
    (∀ st old new oldPre newPre st', TrackOK st → dirPreOf old = some oldPre →
        dirPreOf new = some newPre →
        (∀ e, aget st.files old = some e → e.isDir = true) →
        (∀ kv ∈ st.files, kv.1 ≠ new ∧ newPre.data.isPrefixOf kv.1.data = false) →
        renameTrack st old new true = some st' → TrackOK st') ∧
    (∀ st path size isDir now, TrackOK st → aget st.files path = none →
        TrackOK (scanStep st path size isDir now)) ∧
    (∀ st path size isDir now, TrackOK st →
        TrackOK (updateFileSize st path size isDir now)) ∧
    (∀ st path, TrackOK st → TrackOK (ensureSpaceRemoveStep st path)) := by
  refine ⟨mkdirTrack_ok, statTrack_ok, removeAllTrack_ok, ?_, ?_, scanStep_ok,
    updateFileSize_ok, ensureSpaceRemoveStep_ok⟩
  · intro st old new st' h hf hr
    exact renameTrack_file_ok st old new st' h hf hr
  · intro st old new oldPre newPre st' h h1 h2 h3 h4 h5
    exact renameTrack_dir_ok st old new oldPre newPre st' h h1 h2 h3 h4 h5

/-- Witness for the amended C5 at a concrete input (an `updateFileSize` step
growing a tracked 5-byte file to 7 bytes). -/
theorem C5_amended_size_accounting_witness :
    TrackOK ⟨[("a", ⟨5, 0, "a", false⟩)], 5⟩ ∧
    TrackOK (updateFileSize ⟨[("a", ⟨5, 0, "a", false⟩)], 5⟩ "a" 7 false 1) := by
  refine ⟨⟨by decide, by decide, by decide⟩, ?_⟩
  exact C5_amended_size_accounting.2.2.2.2.2.2.1 ⟨[("a", ⟨5, 0, "a", false⟩)], 5⟩ "a" 7 false 1
    ⟨by decide, by decide, by decide⟩

/-! ### CopyOnReadFS write-through handle (`pkg/webdav/filesystem/cor/init.go`) -/

/-- Write-side errors of the sub-handles. -/
inductive WErr where
  | eio
  deriving DecidableEq

/-- One side of the write-through pair (backend or cache handle): the bytes
it holds and whether its writes fail. -/
structure SubFile where
  content : List Nat
  failing : Bool
  deriving DecidableEq

/-- A sub-handle `Write`: append on success, `(0, err)` on failure. -/
def subWrite (f : SubFile) (p : List Nat) : SubFile × Nat × Option WErr :=
  if f.failing then (f, 0, some .eio)
  else ({ f with content := f.content ++ p }, p.length, none)

/-- `writeThroughFile` (cor/init.go). -/
structure WTFile where
  backendFile : SubFile
  cacheFile : SubFile
  deriving DecidableEq

/-- `writeThroughFile.Write` (cor/init.go): write to the backend first; on a
backend error return its `(n, err)` without touching the cache; otherwise
write the same bytes to the cache, ignore the cache outcome (`// If cache
write fails, log but don't fail the operation`), and return the backend's
count with `nil`. -/
def wtWrite (f : WTFile) (p : List Nat) : WTFile × Nat × Option WErr :=
  let bres := subWrite f.backendFile p
  match bres.2.2 with
  | some e => ({ f with backendFile := bres.1 }, bres.2.1, some e)
  | none =>
      let cres := subWrite f.cacheFile p
      ({ backendFile := bres.1, cacheFile := cres.1 }, bres.2.1, none)

/-- `isWriting` of `FileSystem.OpenFile` (cor/init.go). -/
def corIsWriting (flag : Nat) : Bool :=
  flag &&& (oWRONLY ||| oRDWR ||| oAPPEND ||| oCREATE ||| oTRUNC) ≠ 0

/-- Which kind of handle `FileSystem.OpenFile` returns. -/
inductive CorHandleKind where
  | writeThrough
  | readPath
  deriving DecidableEq

def corOpenKind (flag : Nat) : CorHandleKind :=
  if corIsWriting flag then .writeThrough else .readPath

/-! ### Claim theorems: C7 -/

/-- **C7** (confirmed).  Every write-flagged open yields the write-through
handle; its `Write` forwards to the backend first and, only on backend
success, writes the same bytes to the cache: a backend failure is returned
directly with the cache untouched, while a cache-side failure leaves the
call successful, returning the backend's byte count and `nil` (the cache
simply keeps its old content). -/
theorem C7_write_through_semantics :
    (∀ flag, corIsWriting flag = true → corOpenKind flag = .writeThrough) ∧
    (∀ (f : WTFile) (p : List Nat), f.backendFile.failing = true →
        wtWrite f p = (f, 0, some .eio)) ∧
    (∀ (f : WTFile) (p : List Nat), f.backendFile.failing = false →
        wtWrite f p =
          (⟨⟨f.backendFile.content ++ p, false⟩,
            if f.cacheFile.failing then f.cacheFile
            else ⟨f.cacheFile.content ++ p, false⟩⟩,
            p.length, none)) := by
  refine ⟨?_, ?_, ?_⟩
  · intro flag h
    rw [corOpenKind, if_pos h]
  · intro f p hb
    simp [wtWrite, subWrite, hb]
  · intro f p hb
    by_cases hc : f.cacheFile.failing
    · simp [wtWrite, subWrite, hb, hc]
    · have hc' : f.cacheFile.failing = false := Bool.eq_false_iff.mpr hc
      simp [wtWrite, subWrite, hb, hc']

/-- Witness for C7: a failing cache does not fail the write, and the
backend receives the bytes. -/
theorem C7_write_through_semantics_witness :
    corOpenKind oWRONLY = .writeThrough ∧
    wtWrite ⟨⟨[1], false⟩, ⟨[9], true⟩⟩ [2] = (⟨⟨[1, 2], false⟩, ⟨[9], true⟩⟩, 1, none) ∧
    wtWrite ⟨⟨[1], true⟩, ⟨[9], false⟩⟩ [2] = (⟨⟨[1], true⟩, ⟨[9], false⟩⟩, 0, some .eio) := by
  refine ⟨C7_write_through_semantics.1 oWRONLY (by decide), ?_, ?_⟩
  · have h := C7_write_through_semantics.2.2 ⟨⟨[1], false⟩, ⟨[9], true⟩⟩ [2] rfl
    simpa using h
  · exact C7_write_through_semantics.2.1 ⟨⟨[1], true⟩, ⟨[9], false⟩⟩ [2] rfl

/-! ### The policy rule evaluator (`internal/authz`, `expr.Rule`) -/

/-- The dynamic result of running a compiled program: a boolean, or a value
of some other type. -/
inductive RValue where
  | bool (b : Bool)
  | other
  deriving DecidableEq

/-- Errors surfaced by `Rule.Exec` (compile error, runtime error, or the
"unexpected result type, expected boolean" error). -/
inductive RuleErr where
  | compileFailed (code : Nat)
  | runFailed (code : Nat)
  | nonBool
  deriving DecidableEq

/-- `expr.Rule`: the script plus the memoized compile outcome.  The Go
triple (`compileOnce`, `program`, `compileErr`) collapses to
`Option (Except ..)`: `none` = the once-latch has not fired, `some (.ok p)`
= `program = p`, `some (.error e)` = `compileErr = e`. -/
structure RuleState (P : Type) where
  script : String
  cached : Option (Except Nat P)

/-- `NewRule` (user.go): only the script is set. -/
def newRule (P : Type) (script : String) : RuleState P := ⟨script, none⟩

/-- `Rule.getProgram`: compile lazily under the once-latch, cache the
program or the error; also reports whether this call ran the compiler. -/
def getProgram {P : Type} (compile : String → Except Nat P) (r : RuleState P) :
    RuleState P × Except Nat P × Bool :=
  match r.cached with
  | some res => (r, res, false)
  | none =>
      let res := compile r.script
      ({ r with cached := some res }, res, true)

/-- `Rule.Exec` (user.go): a compile error or run error yields
`(false, err)`; a non-boolean result yields `(false, err)`; a boolean is
returned with `nil`.  (The injection of the `O_*` flag constants into the
environment does not affect these paths and is elided.) -/
def exec {P E : Type} (compile : String → Except Nat P)
    (run : P → E → Except Nat RValue) (r : RuleState P) (env : E) :
    RuleState P × (Bool × Option RuleErr) × Bool :=
  let gp := getProgram compile r
  match gp.2.1 with
  | .error e => (gp.1, (false, some (.compileFailed e)), gp.2.2)
  | .ok p =>
      match run p env with
      | .error e => (gp.1, (false, some (.runFailed e)), gp.2.2)
      | .ok (.bool b) => (gp.1, (b, none), gp.2.2)
      | .ok .other => (gp.1, (false, some .nonBool), gp.2.2)

/-- A sequence of `Exec` calls on the same rule: final state, the list of
`(allowed, err)` results, and how many times the compiler ran. -/
def execSeq {P E : Type} (compile : String → Except Nat P)
    (run : P → E → Except Nat RValue) :
    RuleState P → List E → RuleState P × List (Bool × Option RuleErr) × Nat
  | r, [] => (r, [], 0)
  | r, env :: envs =>
      let e1 := exec compile run r env
      let rest := execSeq compile run e1.1 envs
      (rest.1, e1.2.1 :: rest.2.1, (if e1.2.2 then 1 else 0) + rest.2.2)

theorem exec_state_cached {P E : Type} (compile : String → Except Nat P)
    (run : P → E → Except Nat RValue) (r : RuleState P) (env : E)
    (h : r.cached = some (compile r.script)) :
    (exec compile run r env).1 = r ∧ (exec compile run r env).2.2 = false := by
  cases hc : compile r.script with
  | error e =>
      rw [hc] at h
      simp [exec, getProgram, h]
  | ok p =>
      rw [hc] at h
      cases hr : run p env with
      | error e => simp [exec, getProgram, h, hr]
      | ok v =>
          cases v with
          | bool b => simp [exec, getProgram, h, hr]
          | other => simp [exec, getProgram, h, hr]

theorem exec_state_fresh {P E : Type} (compile : String → Except Nat P)
    (run : P → E → Except Nat RValue) (r : RuleState P) (env : E)
    (h : r.cached = none) :
    (exec compile run r env).1 = { r with cached := some (compile r.script) } ∧
      (exec compile run r env).2.2 = true := by
  cases hc : compile r.script with
  | error e => simp [exec, getProgram, h, hc]
  | ok p =>
      cases hr : run p env with
      | error e => simp [exec, getProgram, h, hc, hr]
      | ok v =>
          cases v with
          | bool b => simp [exec, getProgram, h, hc, hr]
          | other => simp [exec, getProgram, h, hc, hr]

theorem execSeq_cached {P E : Type} (compile : String → Except Nat P)
    (run : P → E → Except Nat RValue) (envs : List E) :
    ∀ (r : RuleState P), r.cached = some (compile r.script) →
      (execSeq compile run r envs).2.2 = 0 ∧ (execSeq compile run r envs).1 = r := by
  induction envs with
  | nil =>
      intro r _
      exact ⟨rfl, rfl⟩
  | cons env envs ih =>
      intro r h
      have h1 := exec_state_cached compile run r env h
      rw [execSeq]
      rw [h1.1, h1.2]
      have h2 := ih r h
      rw [h2.1]
      exact ⟨rfl, h2.2⟩

theorem exec_cached_error {P E : Type} (compile : String → Except Nat P)
    (run : P → E → Except Nat RValue) (r : RuleState P) (env : E) (e : Nat)
    (h : r.cached = some (.error e)) :
    exec compile run r env = (r, (false, some (.compileFailed e)), false) := by
  simp [exec, getProgram, h]

theorem exec_fresh_error {P E : Type} (compile : String → Except Nat P)
    (run : P → E → Except Nat RValue) (r : RuleState P) (env : E) (e : Nat)
    (hn : r.cached = none) (hc : compile r.script = .error e) :
    exec compile run r env =
      ({ r with cached := some (.error e) }, (false, some (.compileFailed e)), true) := by
  simp [exec, getProgram, hn, hc]

theorem execSeq_cached_error {P E : Type} (compile : String → Except Nat P)
    (run : P → E → Except Nat RValue) (e : Nat) (envs : List E) :
    ∀ r : RuleState P, r.cached = some (.error e) →
      (execSeq compile run r envs).2.1 =
        envs.map (fun _ => (false, some (.compileFailed e))) := by
  induction envs with
  | nil =>
      intro r _
      rfl
  | cons env envs ih =>
      intro r h
      have h1 := exec_cached_error compile run r env e h
      simp only [execSeq, h1, List.map_cons]
      exact congrArg (List.cons _) (ih r h)

/-! ### Claim theorems: C9 -/

/-- **C9** (confirmed).  The rule's script is compiled at most once across
any sequence of `Exec` calls (the program or the compile error is cached by
the once-latch); when the compile fails, every `Exec` in the sequence
returns `(false, err)` carrying that same compile error; and an `Exec`
whose cached program runs to a non-boolean value returns `(false, err)`. -/
theorem C9_rule_compile_once_permanent_deny (P E : Type)
    (compile : String → Except Nat P) (run : P → E → Except Nat RValue)
    (script : String) :
    (∀ envs : List E, (execSeq compile run (newRule P script) envs).2.2 ≤ 1) ∧
    (∀ (envs : List E) (e : Nat), compile script = .error e →
        (execSeq compile run (newRule P script) envs).2.1 =
          envs.map (fun _ => (false, some (.compileFailed e)))) ∧
    (∀ (r : RuleState P) (env : E) (p : P),
        (getProgram compile r).2.1 = .ok p → run p env = .ok RValue.other →
        (exec compile run r env).2.1 = (false, some .nonBool)) := by
  refine ⟨?_, ?_, ?_⟩
  · intro envs
    cases envs with
    | nil => simp [execSeq]
    | cons env envs =>
        have h1 := exec_state_fresh compile run (newRule P script) env rfl
        have h2 := execSeq_cached compile run envs ⟨script, some (compile script)⟩ rfl
        simp only [execSeq, newRule] at *
        rw [h1.1, h2.1]
        simp [h1.2]
  · intro envs e hce
    cases envs with
    | nil => rfl
    | cons env envs =>
        have h1 := exec_fresh_error compile run (newRule P script) env e rfl hce
        simp only [execSeq, h1, List.map_cons]
        exact congrArg (List.cons _)
          (execSeq_cached_error compile run e envs _ rfl)
  · intro r env p hp hr
    simp [exec, hp, hr]

/-- Witness for C9: a compiler that always fails with error 7 yields a
permanent deny over two `Exec` calls with a single compile, and a program
returning a non-boolean yields `(false, err)`. -/
theorem C9_rule_compile_once_permanent_deny_witness :
    (execSeq (fun _ => (Except.error 7 : Except Nat Nat))
        (fun _ _ => (Except.ok RValue.other : Except Nat RValue))
        (newRule Nat "x") [0, 1]).2.1 =
      [(false, some (RuleErr.compileFailed 7)), (false, some (RuleErr.compileFailed 7))] ∧
    (execSeq (fun _ => (Except.error 7 : Except Nat Nat))
        (fun _ _ => (Except.ok RValue.other : Except Nat RValue))
        (newRule Nat "x") [0, 1]).2.2 ≤ 1 ∧
    (exec (fun _ => (Except.ok 5 : Except Nat Nat))
        (fun _ _ => (Except.ok RValue.other : Except Nat RValue))
        (newRule Nat "y") 0).2.1 = (false, some RuleErr.nonBool) := by
  refine ⟨?_, ?_, ?_⟩
  · exact (C9_rule_compile_once_permanent_deny Nat Nat (fun _ => Except.error 7)
      (fun _ _ => Except.ok RValue.other) "x").2.1 [0, 1] 7 rfl
  · exact (C9_rule_compile_once_permanent_deny Nat Nat (fun _ => Except.error 7)
      (fun _ _ => Except.ok RValue.other) "x").1 [0, 1]
  · exact (C9_rule_compile_once_permanent_deny Nat Nat (fun _ => Except.ok 5)
      (fun _ _ => Except.ok RValue.other) "y").2.2 (newRule Nat "y") 0 5 rfl rfl

end Calli
